import Mathlib

/-!
Verification of the stream-writer core of `youtube_comment_downloader/__init__.py`.

The embedding works over `List Char` as the text type (a Python `str` is a
sequence of characters).  Comment records are ordered string-keyed mappings
whose values are JSON-compatible data; floats are outside the embedded value
domain (the writer treats records opaquely, and no claim under scrutiny
depends on float formatting).

Components embedded from the source:
  * `to_json`   — `json.dumps(comment, ensure_ascii=False, indent=indent)`
                  followed by the per-line padding step (lines 13-18);
  * `writeLoop` / `mainOutput` — the `while comment:` emission loop of `main`
                  (lines 78-106), including Python truthiness of the loop
                  guard (`while comment:` is false for an empty dict), of
                  `limit` (`limit and count >= limit`: a limit of 0 or None
                  is falsy), and the `end=""` keyword of the `print` call;
  * `mainEffects` — the pre-flight configuration check of `main` (lines
                  63-76) as an effect trace.

An executable JSON parser (`parseDoc`, recursive descent over RFC 8259 with
fuel for nesting) serves as the formal meaning of "the output parses as a
JSON document"; round-trip theorems connect the renderer to it.
-/

mutual
/-- JSON-compatible values.  `JsonList`/`JsonFields` are mutual (rather than
nested `List`) so that all recursions are structural and kernel-reducible.
Numbers are integers: the records the writer handles are embedded without
floats, whose textual form is float-formatting territory. -/
inductive Json where
  | null : Json
  | bool : Bool → Json
  | int : Int → Json
  | str : List Char → Json
  | arr : JsonList → Json
  | obj : JsonFields → Json

inductive JsonList where
  | nil : JsonList
  | cons : Json → JsonList → JsonList

inductive JsonFields where
  | nil : JsonFields
  | cons : List Char → Json → JsonFields → JsonFields
end

/-- A comment record: an ordered mapping from string keys to values
(a Python `dict` in insertion order). -/
abbrev Record := JsonFields

/-- The character `\x7b` (opening curly bracket). -/
def obrace : Char := Char.ofNat 123

/-- The character `\x7d` (closing curly bracket). -/
def cbrace : Char := Char.ofNat 125

/-- Python truthiness of a dict: an empty mapping is falsy. -/
def isEmptyR : Record → Bool
  | JsonFields.nil => true
  | JsonFields.cons _ _ _ => false

/-- JSON escaping of one character, exactly as Python's
`json.encoder.py_encode_basestring` (the `ensure_ascii=False` path): the
seven special escapes, `\u00xx` for the remaining control characters below
`0x20`, and raw passthrough for everything else (including all non-ASCII). -/
def escapeChar (c : Char) : List Char :=
  if c = '"' then ['\\', '"']
  else if c = '\\' then ['\\', '\\']
  else if c = Char.ofNat 8 then ['\\', 'b']
  else if c = Char.ofNat 12 then ['\\', 'f']
  else if c = '\n' then ['\\', 'n']
  else if c = '\r' then ['\\', 'r']
  else if c = '\t' then ['\\', 't']
  else if c.toNat < 32 then
    ['\\', 'u', '0', '0', Nat.digitChar (c.toNat / 16), Nat.digitChar (c.toNat % 16)]
  else [c]

/-- JSON escaping of a whole string. -/
def escapeStr (s : List Char) : List Char := (s.map escapeChar).flatten

/-- Decimal digits of `n`, most significant first (fuel-structural so that it
kernel-reduces; the fuel `n + 1` always suffices). -/
def natDigitsF : Nat → Nat → List Char
  | 0, _ => []
  | fuel + 1, n =>
    if n < 10 then [Nat.digitChar n]
    else natDigitsF fuel (n / 10) ++ [Nat.digitChar (n % 10)]

/-- Decimal digits of `n`, most significant first. -/
def natDigits (n : Nat) : List Char := natDigitsF (n + 1) n

/-- The text of a Python integer (`repr(n)`). -/
def intRepr (n : Int) : List Char :=
  if n < 0 then '-' :: natDigits n.natAbs else natDigits n.toNat

/-- The newline-plus-indentation inserted by `json.dumps` inside containers
when an indent is configured (nothing in compact mode), generalised by a
prefix `pad` spliced after the newline.  `pad = []` is exactly `json.dumps`;
a nonempty `pad` models the per-line padding that `to_json` adds. -/
def nlPad (pad : List Char) (indent : Option Nat) (lvl : Nat) : List Char :=
  match indent with
  | none => []
  | some w => '\n' :: (pad ++ List.replicate (w * lvl) ' ')

/-- The item separator of `json.dumps`: `", "` in compact mode, `","` when an
indent is configured (Python's documented defaults). -/
def itemSep (indent : Option Nat) : List Char :=
  match indent with
  | none => [',', ' ']
  | some _ => [',']

/-- What follows the comma of `itemSep`: one space in compact mode. -/
def itemSepTail (ind : Option Nat) : List Char :=
  match ind with
  | none => [' ']
  | some _ => []

mutual
/-- `json.dumps(value, ensure_ascii=False, indent=indent)` at current indent
level `lvl`, generalised by the extra per-line prefix `pad` (take `pad = []`
for `json.dumps` itself).  Field order is the mapping's own order
(`sort_keys` defaults to false and dict iteration is insertion-ordered). -/
def dumpsP (pad : List Char) (indent : Option Nat) (lvl : Nat) : Json → List Char
  | Json.null => ['n', 'u', 'l', 'l']
  | Json.bool true => ['t', 'r', 'u', 'e']
  | Json.bool false => ['f', 'a', 'l', 's', 'e']
  | Json.int n => intRepr n
  | Json.str s => '"' :: (escapeStr s ++ ['"'])
  | Json.arr JsonList.nil => ['[', ']']
  | Json.arr (JsonList.cons e tl) =>
    '[' :: (nlPad pad indent (lvl + 1) ++ dumpsP pad indent (lvl + 1) e
      ++ dumpsSepElems pad indent (lvl + 1) tl ++ nlPad pad indent lvl ++ [']'])
  | Json.obj JsonFields.nil => [obrace, cbrace]
  | Json.obj (JsonFields.cons k v tl) =>
    obrace :: (nlPad pad indent (lvl + 1)
      ++ '"' :: (escapeStr k ++ '"' :: ':' :: ' ' :: dumpsP pad indent (lvl + 1) v)
      ++ dumpsSepFields pad indent (lvl + 1) tl ++ nlPad pad indent lvl ++ [cbrace])

/-- The `sep elem` repetitions after an array's first element. -/
def dumpsSepElems (pad : List Char) (indent : Option Nat) (lvl : Nat) :
    JsonList → List Char
  | JsonList.nil => []
  | JsonList.cons e tl =>
    itemSep indent ++ nlPad pad indent lvl ++ dumpsP pad indent lvl e
      ++ dumpsSepElems pad indent lvl tl

/-- The `sep "key": value` repetitions after an object's first member. -/
def dumpsSepFields (pad : List Char) (indent : Option Nat) (lvl : Nat) :
    JsonFields → List Char
  | JsonFields.nil => []
  | JsonFields.cons k v tl =>
    itemSep indent ++ nlPad pad indent lvl
      ++ '"' :: (escapeStr k ++ '"' :: ':' :: ' ' :: dumpsP pad indent lvl v)
      ++ dumpsSepFields pad indent lvl tl
end

/-- `json.dumps(value, ensure_ascii=False, indent=indent)`. -/
def dumps (indent : Option Nat) (v : Json) : List Char := dumpsP [] indent 0 v

/-- Python `str.splitlines` terminator set: LF, VT, FF, CR, FS, GS, RS, NEL,
LINE SEPARATOR, PARAGRAPH SEPARATOR (CRLF is handled as one break). -/
def isLineBreak (c : Char) : Bool :=
  c = '\n' || c = '\r' || c.toNat = 11 || c.toNat = 12 || c.toNat = 28 ||
  c.toNat = 29 || c.toNat = 30 || c.toNat = 133 || c.toNat = 8232 || c.toNat = 8233

/-- Python `str.splitlines(keepends=True)`: `acc` holds the current line,
reversed.  A CRLF pair is one break; a lone CR is also a break, as is every
other `isLineBreak` character.  Fuel-structural so that it kernel-reduces;
`s.length + 1` always suffices. -/
def splitlinesF : Nat → List Char → List Char → List (List Char)
  | 0, _, _ => []
  | _ + 1, acc, [] => if acc.isEmpty then [] else [acc.reverse]
  | fuel + 1, acc, c :: t =>
    if c = '\r' then
      match t with
      | '\n' :: t2 => (acc.reverse ++ ['\r', '\n']) :: splitlinesF fuel [] t2
      | _ => (acc.reverse ++ ['\r']) :: splitlinesF fuel [] t
    else if isLineBreak c then (acc.reverse ++ [c]) :: splitlinesF fuel [] t
    else splitlinesF fuel (c :: acc) t

/-- Python `str.splitlines(keepends=True)`. -/
def splitlinesKeep (s : List Char) : List (List Char) := splitlinesF (s.length + 1) [] s

/-- Source `to_json` (lines 13-18): `json.dumps(comment, ensure_ascii=False,
indent=indent)`; when an indent is given, prefix every line with
`" " * (2 * indent)` (empty when `indent` is falsy, i.e. `0`). -/
def to_json (comment : Record) (indent : Option Nat) : List Char :=
  let comment_str := dumps indent (Json.obj comment)
  match indent with
  | none => comment_str
  | some i =>
    let padding := if i ≠ 0 then List.replicate (2 * i) ' ' else []
    ((splitlinesKeep comment_str).map (fun line => padding ++ line)).flatten

/-- The truthiness test `limit and count >= limit` of line 89: false when
`limit` is `None` or `0`, otherwise the comparison. -/
def hitCond (limit : Option Int) (count : Int) : Bool :=
  match limit with
  | none => false
  | some l => (!decide (l = 0)) && decide (l ≤ count)

/-- What one run of the writer loop produced. -/
structure LoopOut where
  text : List Char
  emitted : List Record
  pulled : List Record
  pulls : Nat

/-- The `while comment:` loop of `main` (lines 85-103), fuel-structural.

Per iteration, in source order: guard by Python truthiness of `comment`
(false for `None` and for an empty dict); encode the current record with
`to_json`; compute the lookahead `comment = None if limit and count >= limit
else next(generator, None)`; append `","` when `pretty and comment is not
None`; write the text with `print(..., end="")`, hence with no newline; then
`count += 1`.  `rest` is the still-unconsumed tail of the producer; `pulled`
records every value a `next` call returned, `pulls` counts the `next` calls
made inside the loop (a call on an exhausted generator still counts). -/
def writeLoopF : Nat → Bool → Option Int → Option Record → List Record → Int → LoopOut
  | 0, _, _, _, _, _ => ⟨[], [], [], 0⟩
  | _ + 1, _, _, none, _, _ => ⟨[], [], [], 0⟩
  | fuel + 1, pretty, limit, some r, rest, count =>
    if isEmptyR r then ⟨[], [], [], 0⟩
    else
      let comment_str := to_json r (if pretty then some 4 else none)
      let hit := hitCond limit count
      let nxt : Option Record := if hit then none else rest.head?
      let rest' := if hit then rest else rest.tail
      let comment_str' :=
        if pretty && nxt.isSome then comment_str ++ [','] else comment_str
      let tail := writeLoopF fuel pretty limit nxt rest' (count + 1)
      ⟨comment_str' ++ tail.text, r :: tail.emitted,
        (match nxt with | some x => [x] | none => []) ++ tail.pulled,
        (if hit then 0 else 1) + tail.pulls⟩

/-- The writer loop; the fuel `rest.length + 2` always suffices (each
iteration either consumes a producer element or moves to the `None` state). -/
def writeLoop (pretty : Bool) (limit : Option Int) (cur : Option Record)
    (rest : List Record) (count : Int) : LoopOut :=
  writeLoopF (rest.length + 2) pretty limit cur rest count

/-- The Array-mode opening wrapper written at line 83:
`"{\n" + " " * 4 + '"comments": [\n'`. -/
def openW : List Char := ("\x7b\n    \"comments\": [\n").data

/-- The Array-mode closing wrapper written at line 106:
`"\n" + " " * 4 + "]\n}"`. -/
def closeW : List Char := ("\n    ]\n\x7d").data

/-- The complete text `main` writes to the output file for a given producer
sequence: optional wrapper, first `next(generator, None)`, the loop starting
at `count = 1`, optional closing wrapper. -/
def mainOutput (pretty : Bool) (limit : Option Int) (records : List Record) : List Char :=
  (if pretty then openW else [])
    ++ (writeLoop pretty limit records.head? records.tail 1).text
    ++ (if pretty then closeW else [])

/-- The records whose text `main` wrote, in order. -/
def mainEmitted (pretty : Bool) (limit : Option Int) (records : List Record) : List Record :=
  (writeLoop pretty limit records.head? records.tail 1).emitted

/-- Every record a `next(generator, None)` call returned, in order,
including the initial pull at line 85. -/
def mainPulledRecs (pretty : Bool) (limit : Option Int) (records : List Record) :
    List Record :=
  (match records.head? with | some r => [r] | none => [])
    ++ (writeLoop pretty limit records.head? records.tail 1).pulled

/-- How many times `main` invoked `next(generator, None)`, the initial pull
at line 85 included. -/
def mainPullCalls (pretty : Bool) (limit : Option Int) (records : List Record) : Nat :=
  1 + (writeLoop pretty limit records.head? records.tail 1).pulls

/-- Externally visible actions of `main` before and at the start of I/O, in
program order (console progress printing omitted: it does not touch the
output file, the producer, or the filesystem). -/
inductive Effect where
  | raiseValueError : Effect
  | makedirs : Effect
  | buildProducer : Effect
  | openOutput : Effect
deriving DecidableEq

/-- Python truthiness of an `Optional[str]`: `None` and `""` are falsy. -/
def truthyOpt : Option (List Char) → Bool
  | none => false
  | some s => !s.isEmpty

/-- The head of `main` (lines 63-79) as an effect trace: the line-63 check
`(not youtubeid and not url) or not output` raises `ValueError` before
anything else; otherwise `os.makedirs` runs when the output path contains
`os.path.sep` (`'/'`), then the producer is constructed, then the output
file is opened. -/
def mainEffects (youtubeid url : Option (List Char)) (output : List Char) : List Effect :=
  if ((!truthyOpt youtubeid) && (!truthyOpt url)) || output.isEmpty then
    [Effect.raiseValueError]
  else
    (if output.contains '/' then [Effect.makedirs] else [])
      ++ [Effect.buildProducer, Effect.openOutput]

/-- JSON whitespace (RFC 8259): space, tab, line feed, carriage return. -/
def isWsChar (c : Char) : Bool := c = ' ' || c = '\t' || c = '\n' || c = '\r'

/-- Skip insignificant whitespace. -/
def skipWs (s : List Char) : List Char := s.dropWhile isWsChar

/-- The numeric value of a hexadecimal digit character. -/
def hexVal (c : Char) : Option Nat :=
  if c.isDigit then some (c.toNat - 48)
  else if 'a' ≤ c && c ≤ 'f' then some (c.toNat - 97 + 10)
  else if 'A' ≤ c && c ≤ 'F' then some (c.toNat - 65 + 10)
  else none

/-- The character denoted by a two-character JSON escape. -/
def escDecode (e : Char) : Option Char :=
  if e = '"' then some '"'
  else if e = '\\' then some '\\'
  else if e = '/' then some '/'
  else if e = 'b' then some (Char.ofNat 8)
  else if e = 'f' then some (Char.ofNat 12)
  else if e = 'n' then some '\n'
  else if e = 'r' then some '\r'
  else if e = 't' then some '\t'
  else none

/-- Parse a JSON string body after the opening quote, returning the decoded
characters and the text after the closing quote.  Unescaped control
characters are rejected, as are malformed escapes and unterminated
strings; `\uXXXX` denotes the character with that code. -/
def parseStringBody : List Char → Option (List Char × List Char)
  | [] => none
  | c :: rest =>
    if c = '"' then some ([], rest)
    else if c = '\\' then
      match rest with
      | [] => none
      | e :: rest2 =>
        if e = 'u' then
          match rest2 with
          | h1 :: h2 :: h3 :: h4 :: rest3 =>
            match hexVal h1, hexVal h2, hexVal h3, hexVal h4 with
            | some a, some b, some c2, some d =>
              match parseStringBody rest3 with
              | some (cs, r) =>
                some (Char.ofNat (((a * 16 + b) * 16 + c2) * 16 + d) :: cs, r)
              | none => none
            | _, _, _, _ => none
          | _ => none
        else
          match escDecode e with
          | some ch =>
            match parseStringBody rest2 with
            | some (cs, r) => some (ch :: cs, r)
            | none => none
          | none => none
    else if c.toNat < 32 then none
    else
      match parseStringBody rest with
      | some (cs, r) => some (c :: cs, r)
      | none => none

/-- Numeric value of a (most-significant-first) digit run. -/
def digitsToNat (ds : List Char) : Nat :=
  ds.foldl (fun a c => a * 10 + (c.toNat - 48)) 0

/-- A remainder whose head cannot extend a rendered number. -/
def numSafe (s : List Char) : Bool :=
  match s with
  | [] => true
  | c :: _ => !(c.isDigit || c = '.' || c = 'e' || c = 'E')

/-- Parse the digit run of a JSON integer after an optional minus sign:
digits with no redundant leading zero.  A following fraction or exponent
would denote a float, outside the embedded value domain, and is rejected
rather than misread (the remainder after the digit run must be `numSafe`;
its head is never a digit, so that conjunct is vacuous). -/
def parseNumTail (isNeg : Bool) (s1 : List Char) : Option (Json × List Char) :=
  let ds := s1.takeWhile Char.isDigit
  let s2 := s1.dropWhile Char.isDigit
  if ds.isEmpty then none
  else if 1 < ds.length && ds.head? = some '0' then none
  else if numSafe s2 then
    some (Json.int (if isNeg then -(digitsToNat ds : Int) else (digitsToNat ds : Int)), s2)
  else none

/-- Parse a JSON integer: optional minus sign, then a digit run. -/
def parseNumber (s : List Char) : Option (Json × List Char) :=
  match s with
  | [] => none
  | c :: r => if c = '-' then parseNumTail true r else parseNumTail false (c :: r)

/-- Match an expected literal keyword tail. -/
def expectChars : List Char → List Char → Option (List Char)
  | [], s => some s
  | e :: es, c :: s => if c = e then expectChars es s else none
  | _ :: _, [] => none

mutual
/-- Recursive-descent parser for one JSON value located at the head of `s`
(no leading whitespace); returns the value and the unconsumed remainder.
`fuel` bounds the nesting recursion; every caller supplies enough. -/
def parseValue : Nat → List Char → Option (Json × List Char)
  | 0, _ => none
  | _ + 1, [] => none
  | fuel + 1, c :: r =>
    if c = '"' then
      match parseStringBody r with
      | some (cs, r2) => some (Json.str cs, r2)
      | none => none
    else if c = '[' then
      match skipWs r with
      | [] => none
      | c2 :: r2 =>
        if c2 = ']' then some (Json.arr JsonList.nil, r2)
        else
          match parseElems fuel (c2 :: r2) with
          | some (es, r3) => some (Json.arr es, r3)
          | none => none
    else if c = obrace then
      match skipWs r with
      | [] => none
      | c2 :: r2 =>
        if c2 = cbrace then some (Json.obj JsonFields.nil, r2)
        else
          match parseMembers fuel (c2 :: r2) with
          | some (fs, r3) => some (Json.obj fs, r3)
          | none => none
    else if c = 'n' then
      match expectChars ['u', 'l', 'l'] r with
      | some r2 => some (Json.null, r2)
      | none => none
    else if c = 't' then
      match expectChars ['r', 'u', 'e'] r with
      | some r2 => some (Json.bool true, r2)
      | none => none
    else if c = 'f' then
      match expectChars ['a', 'l', 's', 'e'] r with
      | some r2 => some (Json.bool false, r2)
      | none => none
    else parseNumber (c :: r)

/-- One-or-more comma-separated array elements (whitespace-tolerant),
consuming the closing bracket. -/
def parseElems : Nat → List Char → Option (JsonList × List Char)
  | 0, _ => none
  | fuel + 1, s =>
    match parseValue fuel s with
    | none => none
    | some (v, r) =>
      match skipWs r with
      | [] => none
      | c :: r2 =>
        if c = ',' then
          match parseElems fuel (skipWs r2) with
          | some (vs, r3) => some (JsonList.cons v vs, r3)
          | none => none
        else if c = ']' then some (JsonList.cons v JsonList.nil, r2)
        else none

/-- One-or-more comma-separated object members (whitespace-tolerant),
consuming the closing bracket. -/
def parseMembers : Nat → List Char → Option (JsonFields × List Char)
  | 0, _ => none
  | fuel + 1, s =>
    match s with
    | [] => none
    | c :: r =>
      if c = '"' then
        match parseStringBody r with
        | none => none
        | some (k, r1) =>
          match skipWs r1 with
          | [] => none
          | c2 :: r2 =>
            if c2 = ':' then
              match parseValue fuel (skipWs r2) with
              | none => none
              | some (v, r3) =>
                match skipWs r3 with
                | [] => none
                | c3 :: r4 =>
                  if c3 = ',' then
                    match parseMembers fuel (skipWs r4) with
                    | some (fs, r5) => some (JsonFields.cons k v fs, r5)
                    | none => none
                  else if c3 = cbrace then some (JsonFields.cons k v JsonFields.nil, r4)
                  else none
            else none
      else none
end

/-- Parse a complete JSON document: optional whitespace, one value, optional
whitespace, end of input.  The fuel `s.length + 1` exceeds any possible
nesting depth of a value rendered within `s`. -/
def parseDoc (s : List Char) : Option Json :=
  match parseValue (s.length + 1) (skipWs s) with
  | some (v, r) => if skipWs r = [] then some v else none
  | none => none

mutual
/-- Fuel surely sufficient for `parseValue` on any rendering of `v`
(each recursive parser call descends one step into the value). -/
def jsize : Json → Nat
  | Json.null => 1
  | Json.bool _ => 1
  | Json.int _ => 1
  | Json.str _ => 1
  | Json.arr es => 1 + jsizeElems es
  | Json.obj fs => 1 + jsizeFields fs

def jsizeElems : JsonList → Nat
  | JsonList.nil => 0
  | JsonList.cons e tl => 1 + jsize e + jsizeElems tl

def jsizeFields : JsonFields → Nat
  | JsonFields.nil => 0
  | JsonFields.cons _ v tl => 1 + jsize v + jsizeFields tl
end

/-- Characters whose raw occurrence inside a rendered string would add a
`str.splitlines` break beyond the renderer's own newlines: NEL (U+0085),
LINE SEPARATOR (U+2028), PARAGRAPH SEPARATOR (U+2029).  All other break
characters are below `0x20` and the escaper never lets them through raw. -/
def tameChar (c : Char) : Bool :=
  !(c.toNat = 133 || c.toNat = 8232 || c.toNat = 8233)

mutual
/-- No string content anywhere in the value contains the three raw Unicode
line separators that `str.splitlines` would additionally break on. -/
def cleanJson : Json → Bool
  | Json.null => true
  | Json.bool _ => true
  | Json.int _ => true
  | Json.str s => s.all tameChar
  | Json.arr es => cleanElems es
  | Json.obj fs => cleanFields fs

def cleanElems : JsonList → Bool
  | JsonList.nil => true
  | JsonList.cons e tl => cleanJson e && cleanElems tl

def cleanFields : JsonFields → Bool
  | JsonFields.nil => true
  | JsonFields.cons k v tl => k.all tameChar && cleanJson v && cleanFields tl
end

/-- `cleanJson` for a record. -/
def cleanRec (r : Record) : Bool := cleanFields r

/-- Whether a text's final character is a newline. -/
def lastIsNl : List Char → Bool
  | [] => false
  | [c] => c = '\n'
  | _ :: c :: t => lastIsNl (c :: t)

/-- Insert `pad` right after every newline of `s`. -/
def insertAfterNl (pad : List Char) : List Char → List Char
  | [] => []
  | c :: t =>
    if c = '\n' then c :: (pad ++ insertAfterNl pad t)
    else c :: insertAfterNl pad t

/-- Blocks joined by a bare `','` with no other separator text. -/
def joinComma : List (List Char) → List Char
  | [] => []
  | [b] => b
  | b :: b2 :: bs => b ++ ',' :: joinComma (b2 :: bs)

/-- The records of a list as JSON objects, as a `JsonList`. -/
def objsOf : List Record → JsonList
  | [] => JsonList.nil
  | r :: rs => JsonList.cons (Json.obj r) (objsOf rs)

/-- Pretty-mode element render: `dumps` with indent 4 and the 8-space shift
pad that `to_json` inserts after every newline. -/
def D4 (r : Record) : List Char := dumpsP (List.replicate 8 ' ') (some 4) 0 (Json.obj r)

/-- The document text that follows a pretty-mode element: either the closing
wrapper, or a comma, the 8-space shift and the next element. -/
def blocksTail : List Record → List Char
  | [] => closeW
  | r :: rs => ',' :: (List.replicate 8 ' ' ++ (D4 r ++ blocksTail rs))

/-- The full Array-mode document text for a list of emitted records. -/
def prettyDoc (rs : List Record) : List Char :=
  openW ++ joinComma (rs.map (fun r => List.replicate 8 ' ' ++ D4 r)) ++ closeW

/-- Concrete records for counterexamples and witnesses. -/
def recA : Record := JsonFields.cons (("a").data) (Json.int 1) JsonFields.nil

def recB : Record := JsonFields.cons (("b").data) (Json.int 2) JsonFields.nil

def recBA : Record := JsonFields.cons (("b").data) (Json.int 1)
  (JsonFields.cons (("a").data) (Json.int 2) JsonFields.nil)

def emptyRec : Record := JsonFields.nil

/-! ### Character and whitespace facts -/

theorem char_eq_iff_toNat {c d : Char} : c = d ↔ c.toNat = d.toNat := by
  rw [Char.ext_iff]
  exact ⟨fun h => congrArg UInt32.toNat h, fun h => UInt32.toNat.inj h⟩

theorem char_isDigit_iff {c : Char} : c.isDigit = true ↔ 48 ≤ c.toNat ∧ c.toNat ≤ 57 := by
  simp only [Char.isDigit, Bool.and_eq_true, decide_eq_true_eq, Char.le_def]
  exact Iff.rfl

theorem skipWs_cons_neg {c : Char} {t : List Char} (h : isWsChar c = false) :
    skipWs (c :: t) = c :: t := by
  simp [skipWs, List.dropWhile_cons, h]

theorem skipWs_append_ws {a : List Char} (b : List Char)
    (h : ∀ c ∈ a, isWsChar c = true) : skipWs (a ++ b) = skipWs b := by
  induction a with
  | nil => rfl
  | cons c t ih =>
    have hc : isWsChar c = true := h c (List.mem_cons_self c t)
    simp only [List.cons_append, skipWs, List.dropWhile_cons, hc, if_pos]
    exact ih (fun x hx => h x (List.mem_cons_of_mem c hx))

theorem skipWs_nil : skipWs [] = [] := rfl

/-! ### Decimal digits -/

theorem digitChar_spec (d : Nat) (h : d < 10) :
    (Nat.digitChar d).isDigit = true ∧ (Nat.digitChar d).toNat - 48 = d ∧
      (Nat.digitChar d).toNat = 48 + d := by
  interval_cases d <;> exact ⟨rfl, rfl, rfl⟩

theorem natDigitsF_congr : ∀ (f g n : Nat), n < f → n < g →
    natDigitsF f n = natDigitsF g n := by
  intro f
  induction f using Nat.strong_induction_on with
  | _ f ih =>
    intro g n hf hg
    match f, g, hf, hg with
    | f' + 1, g' + 1, hf, hg =>
      simp only [natDigitsF]
      by_cases h10 : n < 10
      · simp [h10]
      · simp only [if_neg h10]
        have hlt : n / 10 < n := Nat.div_lt_self (by omega) (by omega)
        rw [ih f' (by omega) g' (n / 10) (by omega) (by omega)]

theorem natDigits_eq (n : Nat) : natDigits n =
    if n < 10 then [Nat.digitChar n]
    else natDigits (n / 10) ++ [Nat.digitChar (n % 10)] := by
  show natDigitsF (n + 1) n = _
  simp only [natDigitsF]
  by_cases h10 : n < 10
  · simp [h10]
  · simp only [if_neg h10]
    have hlt : n / 10 < n := Nat.div_lt_self (by omega) (by omega)
    rw [natDigitsF_congr n (n / 10 + 1) (n / 10) (by omega) (by omega)]
    rfl

theorem natDigits_ne_nil (n : Nat) : natDigits n ≠ [] := by
  rw [natDigits_eq]
  by_cases h10 : n < 10 <;> simp [h10]

theorem natDigits_all_digits (n : Nat) : ∀ c ∈ natDigits n, c.isDigit = true := by
  induction n using Nat.strong_induction_on with
  | _ n ih =>
    rw [natDigits_eq]
    by_cases h10 : n < 10
    · simp only [if_pos h10, List.mem_singleton]
      intro c hc
      subst hc
      exact (digitChar_spec n h10).1
    · simp only [if_neg h10, List.mem_append, List.mem_singleton]
      intro c hc
      rcases hc with hc | hc
      · exact ih (n / 10) (Nat.div_lt_self (by omega) (by omega)) c hc
      · subst hc
        exact (digitChar_spec (n % 10) (Nat.mod_lt _ (by omega))).1

theorem digitsToNat_append_one (ds : List Char) (c : Char) :
    digitsToNat (ds ++ [c]) = digitsToNat ds * 10 + (c.toNat - 48) := by
  simp [digitsToNat, List.foldl_append]

theorem digitsToNat_natDigits (n : Nat) : digitsToNat (natDigits n) = n := by
  induction n using Nat.strong_induction_on with
  | _ n ih =>
    rw [natDigits_eq]
    by_cases h10 : n < 10
    · simp only [if_pos h10]
      show 0 * 10 + ((Nat.digitChar n).toNat - 48) = n
      rw [(digitChar_spec n h10).2.1]
      omega
    · simp only [if_neg h10, digitsToNat_append_one]
      rw [ih (n / 10) (Nat.div_lt_self (by omega) (by omega))]
      rw [(digitChar_spec (n % 10) (Nat.mod_lt _ (by omega))).2.1]
      omega

theorem natDigits_head_pos : ∀ (n : Nat), 1 ≤ n →
    ∀ c, (natDigits n).head? = some c → c.toNat ≠ 48 := by
  intro n
  induction n using Nat.strong_induction_on with
  | _ n ih =>
    intro h c hc
    rw [natDigits_eq] at hc
    by_cases h10 : n < 10
    · rw [if_pos h10] at hc
      simp only [List.head?_cons, Option.some.injEq] at hc
      subst hc
      rw [(digitChar_spec n h10).2.2]
      omega
    · rw [if_neg h10, List.head?_append] at hc
      match hh : (natDigits (n / 10)).head? with
      | none => exact absurd (List.head?_eq_none_iff.mp hh) (natDigits_ne_nil _)
      | some c0 =>
        rw [hh] at hc
        simp only [Option.or_some, Option.some.injEq] at hc
        cases hc
        exact ih (n / 10) (Nat.div_lt_self (by omega) (by omega)) (by omega) _ hh

/-! ### Digit runs and the number round trip -/

theorem numSafe_split {rest : List Char} (h : numSafe rest = true) :
    rest.takeWhile Char.isDigit = [] ∧ rest.dropWhile Char.isDigit = rest := by
  match rest with
  | [] => exact ⟨rfl, rfl⟩
  | c :: t =>
    simp only [numSafe, Bool.not_eq_true', Bool.or_eq_false_iff] at h
    exact ⟨by simp [List.takeWhile_cons, h.1.1.1],
      by simp [List.dropWhile_cons, h.1.1.1]⟩

theorem digits_run_split (ds rest : List Char)
    (h : ∀ c ∈ ds, c.isDigit = true) (hrest : numSafe rest = true) :
    (ds ++ rest).takeWhile Char.isDigit = ds ∧
      (ds ++ rest).dropWhile Char.isDigit = rest := by
  induction ds with
  | nil => simpa using numSafe_split hrest
  | cons c t ih =>
    have hc : c.isDigit = true := h c (List.mem_cons_self c t)
    have iht := ih (fun x hx => h x (List.mem_cons_of_mem c hx))
    simp only [List.cons_append, List.takeWhile_cons, List.dropWhile_cons, hc,
      if_pos, iht.1, iht.2, and_self]

theorem head_ne_zero_char {ds : List Char}
    (h : ∀ c, ds.head? = some c → c.toNat ≠ 48) :
    (ds.head? = some '0') = False := by
  simp only [eq_iff_iff, iff_false]
  intro hc
  exact h '0' hc rfl

theorem parseNumTail_run (b : Bool) (m : Nat) (rest : List Char)
    (h : numSafe rest = true) :
    parseNumTail b (natDigits m ++ rest) =
      some (Json.int (if b then -(m : Int) else (m : Int)), rest) := by
  have hsplit := digits_run_split (natDigits m) rest (natDigits_all_digits _) h
  have hempty : ¬(((natDigits m).isEmpty : Prop)) := by
    simp [List.isEmpty_eq_true, natDigits_ne_nil m]
  simp only [parseNumTail, hsplit.1, hsplit.2]
  rw [if_neg hempty]
  by_cases h0 : m = 0
  · subst h0
    have h00 : natDigits 0 = ['0'] := rfl
    rw [h00]
    rw [if_neg (by decide), if_pos h]
    have hd0 : digitsToNat ['0'] = 0 := rfl
    cases b <;> simp [hd0]
  · have hzero : ¬((1 < (natDigits m).length &&
        ((natDigits m).head? = some '0') : Bool) = true) := by
      simp only [Bool.and_eq_true, decide_eq_true_eq, not_and]
      intro _
      rw [head_ne_zero_char (natDigits_head_pos m (by omega))]
      simp
    rw [if_neg hzero, if_pos h, digitsToNat_natDigits]

theorem parseNumber_intRepr (n : Int) (rest : List Char) (h : numSafe rest = true) :
    parseNumber (intRepr n ++ rest) = some (Json.int n, rest) := by
  by_cases hn : n < 0
  · have hrep : intRepr n = '-' :: natDigits n.natAbs := by simp [intRepr, hn]
    rw [hrep, List.cons_append]
    simp only [parseNumber, eq_self_iff_true, if_true]
    rw [parseNumTail_run true n.natAbs rest h]
    have hv : -((n.natAbs : Nat) : Int) = n := by omega
    show some (Json.int (-((n.natAbs : Nat) : Int)), rest) = _
    rw [hv]
  · have hrep : intRepr n = natDigits n.toNat := by simp [intRepr, hn]
    obtain ⟨c, t, hct⟩ : ∃ c t, natDigits n.toNat = c :: t := by
      match hnd : natDigits n.toNat with
      | [] => exact absurd hnd (natDigits_ne_nil _)
      | c :: t => exact ⟨c, t, rfl⟩
    have hcd : c.isDigit = true := by
      refine natDigits_all_digits n.toNat c ?_
      rw [hct]
      exact List.mem_cons_self c t
    have hcm : ¬(c = '-') := by
      rw [char_isDigit_iff] at hcd
      rw [char_eq_iff_toNat]
      show ¬(c.toNat = 45)
      omega
    rw [hrep, hct, List.cons_append]
    simp only [parseNumber]
    rw [if_neg hcm, show c :: (t ++ rest) = natDigits n.toNat ++ rest by
      rw [hct, List.cons_append]]
    rw [parseNumTail_run false n.toNat rest h]
    have hv : ((n.toNat : Nat) : Int) = n := by omega
    show some (Json.int ((n.toNat : Nat) : Int), rest) = _
    rw [hv]

/-! ### The string round trip -/

theorem hexVal_digitChar (m : Nat) (h : m < 16) : hexVal (Nat.digitChar m) = some m := by
  interval_cases m <;> decide

theorem escapeStr_cons (c : Char) (t : List Char) :
    escapeStr (c :: t) = escapeChar c ++ escapeStr t := by
  simp [escapeStr]

theorem parseStringBody_escape : ∀ (s rest : List Char),
    parseStringBody (escapeStr s ++ '"' :: rest) = some (s, rest)
  | [], rest => by
    show parseStringBody ('"' :: rest) = some ([], rest)
    rw [parseStringBody.eq_def]
    simp
  | c :: t, rest => by
    rw [escapeStr_cons, List.append_assoc]
    have ih := parseStringBody_escape t rest
    by_cases h1 : c = '"'
    · subst h1
      rw [show escapeChar '"' = ['\\', '"'] from rfl]
      rw [List.cons_append, List.cons_append, parseStringBody.eq_def]
      simp [escDecode, ih]
    · by_cases h2 : c = '\\'
      · subst h2
        rw [show escapeChar '\\' = ['\\', '\\'] from rfl]
        rw [List.cons_append, List.cons_append, parseStringBody.eq_def]
        simp [escDecode, ih]
      · by_cases h3 : c = Char.ofNat 8
        · subst h3
          rw [show escapeChar (Char.ofNat 8) = ['\\', 'b'] from rfl]
          rw [List.cons_append, List.cons_append, parseStringBody.eq_def]
          simp [escDecode, ih]
        · by_cases h4 : c = Char.ofNat 12
          · subst h4
            rw [show escapeChar (Char.ofNat 12) = ['\\', 'f'] from rfl]
            rw [List.cons_append, List.cons_append, parseStringBody.eq_def]
            simp [escDecode, ih]
          · by_cases h5 : c = '\n'
            · subst h5
              rw [show escapeChar '\n' = ['\\', 'n'] from rfl]
              rw [List.cons_append, List.cons_append, parseStringBody.eq_def]
              simp [escDecode, ih]
            · by_cases h6 : c = '\r'
              · subst h6
                rw [show escapeChar '\r' = ['\\', 'r'] from rfl]
                rw [List.cons_append, List.cons_append, parseStringBody.eq_def]
                simp [escDecode, ih]
              · by_cases h7 : c = '\t'
                · subst h7
                  rw [show escapeChar '\t' = ['\\', 't'] from rfl]
                  rw [List.cons_append, List.cons_append, parseStringBody.eq_def]
                  simp [escDecode, ih]
                · by_cases h8 : c.toNat < 32
                  · have hesc : escapeChar c = ['\\', 'u', '0', '0',
                        Nat.digitChar (c.toNat / 16), Nat.digitChar (c.toNat % 16)] := by
                      simp [escapeChar, h1, h2, h3, h4, h5, h6, h7, h8]
                    rw [hesc]
                    have hd1 : hexVal (Nat.digitChar (c.toNat / 16)) =
                        some (c.toNat / 16) := hexVal_digitChar _ (by omega)
                    have hd2 : hexVal (Nat.digitChar (c.toNat % 16)) =
                        some (c.toNat % 16) := hexVal_digitChar _ (by omega)
                    have hv0 : hexVal '0' = some 0 := by decide
                    simp only [List.cons_append]
                    rw [parseStringBody.eq_def]
                    have harith : ((0 * 16 + 0) * 16 + c.toNat / 16) * 16 + c.toNat % 16 =
                        c.toNat := by omega
                    simp [hv0, hd1, hd2, ih, harith, Char.ofNat_toNat]
                    rw [show c.toNat / 16 * 16 + c.toNat % 16 = c.toNat from by omega,
                      Char.ofNat_toNat]
                  · have hesc : escapeChar c = [c] := by
                      simp [escapeChar, h1, h2, h3, h4, h5, h6, h7, h8]
                    rw [hesc]
                    rw [List.cons_append, parseStringBody.eq_def]
                    simp [h1, h2, h8, ih]

/-! ### Shape facts about renderings -/

theorem isWsChar_of_digit {c : Char} (h : c.isDigit = true) : isWsChar c = false := by
  rw [char_isDigit_iff] at h
  simp only [isWsChar, Bool.or_eq_false_iff]
  refine ⟨⟨⟨?_, ?_⟩, ?_⟩, ?_⟩ <;>
    (simp only [decide_eq_false_iff_not]
     rw [char_eq_iff_toNat]
     simp only [show (' ').toNat = 32 from rfl, show ('\t').toNat = 9 from rfl,
       show ('\n').toNat = 10 from rfl, show ('\r').toNat = 13 from rfl]
     omega)

theorem nlPad_ws {pad : List Char} (hpad : ∀ c ∈ pad, isWsChar c = true)
    (ind : Option Nat) (lvl : Nat) : ∀ c ∈ nlPad pad ind lvl, isWsChar c = true := by
  intro c hc
  match ind with
  | none => simp [nlPad] at hc
  | some w =>
    simp only [nlPad, List.mem_cons, List.mem_append, List.mem_replicate] at hc
    rcases hc with hc | hc | hc
    · subst hc; rfl
    · exact hpad c hc
    · rw [hc.2]; rfl

theorem itemSep_eq (ind : Option Nat) : itemSep ind = ',' :: itemSepTail ind := by
  match ind with
  | none => rfl
  | some _ => rfl

theorem itemSepTail_ws (ind : Option Nat) :
    ∀ c ∈ itemSepTail ind, isWsChar c = true := by
  match ind with
  | none => intro c hc; simp [itemSepTail] at hc; subst hc; rfl
  | some _ => intro c hc; simp [itemSepTail] at hc

theorem dumpsP_head_spec (pad : List Char) (ind : Option Nat) (lvl : Nat) (v : Json) :
    ∃ c t, dumpsP pad ind lvl v = c :: t ∧ isWsChar c = false ∧
      (c = ']') = False ∧ (c = cbrace) = False := by
  match v with
  | Json.null => exact ⟨'n', _, rfl, by decide, by decide, by decide⟩
  | Json.bool true => exact ⟨'t', _, rfl, by decide, by decide, by decide⟩
  | Json.bool false => exact ⟨'f', _, rfl, by decide, by decide, by decide⟩
  | Json.str s => exact ⟨'"', _, rfl, by decide, by decide, by decide⟩
  | Json.arr JsonList.nil => exact ⟨'[', _, rfl, by decide, by decide, by decide⟩
  | Json.arr (JsonList.cons e tl) => exact ⟨'[', _, rfl, by decide, by decide, by decide⟩
  | Json.obj JsonFields.nil =>
    exact ⟨obrace, _, rfl, by decide, by decide, by decide⟩
  | Json.obj (JsonFields.cons k w tl) =>
    exact ⟨obrace, _, rfl, by decide, by decide, by decide⟩
  | Json.int n =>
    show ∃ c t, intRepr n = c :: t ∧ _
    by_cases hn : n < 0
    · refine ⟨'-', natDigits n.natAbs, by simp [intRepr, hn], by decide, by decide, by decide⟩
    · obtain ⟨c, t, hct⟩ : ∃ c t, natDigits n.toNat = c :: t := by
        match hnd : natDigits n.toNat with
        | [] => exact absurd hnd (natDigits_ne_nil _)
        | c :: t => exact ⟨c, t, rfl⟩
      have hcd : c.isDigit = true := by
        refine natDigits_all_digits n.toNat c ?_
        rw [hct]
        exact List.mem_cons_self c t
      have h48 := char_isDigit_iff.mp hcd
      refine ⟨c, t, by simp [intRepr, hn, hct], isWsChar_of_digit hcd, ?_, ?_⟩ <;>
        (simp only [eq_iff_iff, iff_false]
         rw [char_eq_iff_toNat]
         simp only [show (']').toNat = 93 from rfl, show cbrace.toNat = 125 from rfl]
         omega)

theorem numSafe_ws_bracket {W : List Char} (hW : ∀ c ∈ W, isWsChar c = true)
    {c : Char} (hc : c.isDigit = false ∧ (c = '.') = False ∧ (c = 'e') = False ∧
      (c = 'E') = False) (rest : List Char) :
    numSafe (W ++ c :: rest) = true := by
  match W with
  | [] => simp [numSafe, hc.1, hc.2.1, hc.2.2.1, hc.2.2.2]
  | w :: W' =>
    have hw := hW w (List.mem_cons_self w W')
    simp only [isWsChar, Bool.or_eq_true, decide_eq_true_eq] at hw
    have : w.isDigit = false := by
      rcases hw with ((h | h) | h) | h <;> (subst h; rfl)
    simp only [List.cons_append, numSafe]
    rcases hw with ((h | h) | h) | h <;> (subst h; simp)

theorem jsize_pos (v : Json) : 1 ≤ jsize v := by
  match v with
  | Json.null | Json.bool _ | Json.int _ | Json.str _ => exact le_refl 1
  | Json.arr es => show 1 ≤ 1 + jsizeElems es; omega
  | Json.obj fs => show 1 ≤ 1 + jsizeFields fs; omega


theorem skipWs_colon (x : List Char) : skipWs (':' :: x) = ':' :: x :=
  skipWs_cons_neg (by decide)

theorem skipWs_comma (x : List Char) : skipWs (',' :: x) = ',' :: x :=
  skipWs_cons_neg (by decide)

/-! ### The rendering round trip -/

mutual
theorem rt_val (pad : List Char) (hpad : ∀ c ∈ pad, isWsChar c = true)
    (ind : Option Nat) :
    ∀ (v : Json) (lvl : Nat) (rest : List Char) (fuel : Nat), jsize v ≤ fuel →
      numSafe rest = true →
      parseValue fuel (dumpsP pad ind lvl v ++ rest) = some (v, rest)
  | Json.null, lvl, rest, fuel, hf, hns => by
    obtain ⟨f, rfl⟩ : ∃ f, fuel = f + 1 :=
      ⟨fuel - 1, by have := jsize_pos (Json.null); omega⟩
    show parseValue (f + 1) ('n' :: 'u' :: 'l' :: 'l' :: rest) = _
    rw [parseValue.eq_def]
    simp [expectChars, obrace]
  | Json.bool true, lvl, rest, fuel, hf, hns => by
    obtain ⟨f, rfl⟩ : ∃ f, fuel = f + 1 :=
      ⟨fuel - 1, by have := jsize_pos (Json.bool true); omega⟩
    show parseValue (f + 1) ('t' :: 'r' :: 'u' :: 'e' :: rest) = _
    rw [parseValue.eq_def]
    simp [expectChars, obrace]
  | Json.bool false, lvl, rest, fuel, hf, hns => by
    obtain ⟨f, rfl⟩ : ∃ f, fuel = f + 1 :=
      ⟨fuel - 1, by have := jsize_pos (Json.bool false); omega⟩
    show parseValue (f + 1) ('f' :: 'a' :: 'l' :: 's' :: 'e' :: rest) = _
    rw [parseValue.eq_def]
    simp [expectChars, obrace]
  | Json.str s, lvl, rest, fuel, hf, hns => by
    obtain ⟨f, rfl⟩ : ∃ f, fuel = f + 1 :=
      ⟨fuel - 1, by have := jsize_pos (Json.str s); omega⟩
    show parseValue (f + 1) ('"' :: (escapeStr s ++ ['"'] ++ rest)) = _
    rw [parseValue.eq_def]
    have hra : escapeStr s ++ ['"'] ++ rest = escapeStr s ++ '"' :: rest := by
      rw [List.append_assoc]
      rfl
    simp [hra, parseStringBody_escape]
  | Json.int n, lvl, rest, fuel, hf, hns => by
    obtain ⟨f, rfl⟩ : ∃ f, fuel = f + 1 :=
      ⟨fuel - 1, by have := jsize_pos (Json.int n); omega⟩
    show parseValue (f + 1) (intRepr n ++ rest) = _
    obtain ⟨c, t, hct, hws, hrb, hcb⟩ := dumpsP_head_spec pad ind lvl (Json.int n)
    have hct2 : intRepr n = c :: t := hct
    have hdm : c.isDigit = true ∨ c = '-' := by
      by_cases hn : n < 0
      · right
        have hmi : intRepr n = '-' :: natDigits n.natAbs := by simp [intRepr, hn]
        rw [hmi] at hct2
        exact ((List.cons.injEq _ _ _ _).mp hct2.symm).1
      · left
        have hrep : intRepr n = natDigits n.toNat := by simp [intRepr, hn]
        refine natDigits_all_digits n.toNat c ?_
        rw [← hrep, hct2]
        exact List.mem_cons_self c t
    have hnots : ((c = '"') = False) ∧ ((c = '[') = False) ∧ ((c = obrace) = False) ∧
        ((c = 'n') = False) ∧ ((c = 't') = False) ∧ ((c = 'f') = False) := by
      rcases hdm with hd | hd
      · have h48 := char_isDigit_iff.mp hd
        refine ⟨?_, ?_, ?_, ?_, ?_, ?_⟩ <;>
          (simp only [eq_iff_iff, iff_false]
           rw [char_eq_iff_toNat]
           simp only [show ('"').toNat = 34 from rfl, show ('[').toNat = 91 from rfl,
             show obrace.toNat = 123 from rfl, show ('n').toNat = 110 from rfl,
             show ('t').toNat = 116 from rfl, show ('f').toNat = 102 from rfl]
           omega)
      · subst hd
        refine ⟨?_, ?_, ?_, ?_, ?_, ?_⟩ <;> simp [obrace]
    rw [hct2, List.cons_append, parseValue.eq_def]
    simp only [hnots.1, hnots.2.1, hnots.2.2.1, hnots.2.2.2.1, hnots.2.2.2.2.1,
      hnots.2.2.2.2.2, if_false]
    rw [show c :: (t ++ rest) = intRepr n ++ rest by rw [hct2, List.cons_append]]
    exact parseNumber_intRepr n rest hns
  | Json.arr JsonList.nil, lvl, rest, fuel, hf, hns => by
    obtain ⟨f, rfl⟩ : ∃ f, fuel = f + 1 :=
      ⟨fuel - 1, by have := jsize_pos (Json.arr JsonList.nil); omega⟩
    show parseValue (f + 1) ('[' :: ']' :: rest) = _
    rw [parseValue.eq_def]
    have hsk : skipWs (']' :: rest) = ']' :: rest :=
      skipWs_cons_neg (by decide)
    simp [hsk, obrace]
  | Json.arr (JsonList.cons e tl), lvl, rest, fuel, hf, hns => by
    obtain ⟨f, rfl⟩ : ∃ f, fuel = f + 1 :=
      ⟨fuel - 1, by have := jsize_pos (Json.arr (JsonList.cons e tl)); omega⟩
    show parseValue (f + 1)
      ('[' :: (nlPad pad ind (lvl + 1) ++ dumpsP pad ind (lvl + 1) e
        ++ dumpsSepElems pad ind (lvl + 1) tl ++ nlPad pad ind lvl ++ [']']) ++ rest) = _
    have hnorm : ('[' :: (nlPad pad ind (lvl + 1) ++ dumpsP pad ind (lvl + 1) e
        ++ dumpsSepElems pad ind (lvl + 1) tl ++ nlPad pad ind lvl ++ [']']) ++ rest)
        = '[' :: (nlPad pad ind (lvl + 1) ++ (dumpsP pad ind (lvl + 1) e
          ++ (dumpsSepElems pad ind (lvl + 1) tl ++ (nlPad pad ind lvl ++ ']' :: rest)))) := by
      simp [List.append_assoc]
    rw [hnorm, parseValue.eq_def]
    obtain ⟨c0, t0, hct0, hws0, hrb0, hcb0⟩ := dumpsP_head_spec pad ind (lvl + 1) e
    have hsk : skipWs (nlPad pad ind (lvl + 1) ++ (dumpsP pad ind (lvl + 1) e
        ++ (dumpsSepElems pad ind (lvl + 1) tl ++ (nlPad pad ind lvl ++ ']' :: rest))))
        = dumpsP pad ind (lvl + 1) e
          ++ (dumpsSepElems pad ind (lvl + 1) tl ++ (nlPad pad ind lvl ++ ']' :: rest)) := by
      rw [skipWs_append_ws _ (nlPad_ws hpad ind (lvl + 1)), hct0, List.cons_append,
        skipWs_cons_neg hws0, ← List.cons_append, ← hct0]
    have helems := rt_elems pad hpad ind e tl (lvl + 1) (nlPad pad ind lvl) rest f
      (by simp only [jsize] at hf; omega) (nlPad_ws hpad ind lvl)
    rw [hct0, List.cons_append] at helems
    rw [hct0, List.cons_append] at hsk
    simp [hsk, hct0, obrace, hrb0, helems]
  | Json.obj JsonFields.nil, lvl, rest, fuel, hf, hns => by
    obtain ⟨f, rfl⟩ : ∃ f, fuel = f + 1 :=
      ⟨fuel - 1, by have := jsize_pos (Json.obj JsonFields.nil); omega⟩
    show parseValue (f + 1) (obrace :: cbrace :: rest) = _
    rw [parseValue.eq_def]
    have hsk : skipWs (cbrace :: rest) = cbrace :: rest :=
      skipWs_cons_neg (by decide)
    have hob1 : (obrace = '"') = False := by decide
    have hob2 : (obrace = '[') = False := by decide
    simp [hsk, hob1, hob2]
  | Json.obj (JsonFields.cons k v tl), lvl, rest, fuel, hf, hns => by
    obtain ⟨f, rfl⟩ : ∃ f, fuel = f + 1 :=
      ⟨fuel - 1, by have := jsize_pos (Json.obj (JsonFields.cons k v tl)); omega⟩
    show parseValue (f + 1)
      (obrace :: (nlPad pad ind (lvl + 1)
        ++ '"' :: (escapeStr k ++ '"' :: ':' :: ' ' :: dumpsP pad ind (lvl + 1) v)
        ++ dumpsSepFields pad ind (lvl + 1) tl ++ nlPad pad ind lvl ++ [cbrace]) ++ rest) = _
    have hnorm : (obrace :: (nlPad pad ind (lvl + 1)
        ++ '"' :: (escapeStr k ++ '"' :: ':' :: ' ' :: dumpsP pad ind (lvl + 1) v)
        ++ dumpsSepFields pad ind (lvl + 1) tl ++ nlPad pad ind lvl ++ [cbrace]) ++ rest)
        = obrace :: (nlPad pad ind (lvl + 1)
          ++ '"' :: (escapeStr k ++ '"' :: ':' :: ' ' :: (dumpsP pad ind (lvl + 1) v
            ++ (dumpsSepFields pad ind (lvl + 1) tl
              ++ (nlPad pad ind lvl ++ cbrace :: rest))))) := by
      simp [List.append_assoc]
    rw [hnorm, parseValue.eq_def]
    have hsk : skipWs (nlPad pad ind (lvl + 1)
        ++ '"' :: (escapeStr k ++ '"' :: ':' :: ' ' :: (dumpsP pad ind (lvl + 1) v
          ++ (dumpsSepFields pad ind (lvl + 1) tl ++ (nlPad pad ind lvl ++ cbrace :: rest)))))
        = '"' :: (escapeStr k ++ '"' :: ':' :: ' ' :: (dumpsP pad ind (lvl + 1) v
          ++ (dumpsSepFields pad ind (lvl + 1) tl
            ++ (nlPad pad ind lvl ++ cbrace :: rest)))) := by
      rw [skipWs_append_ws _ (nlPad_ws hpad ind (lvl + 1)), skipWs_cons_neg (by decide)]
    have hfields := rt_fields pad hpad ind k v tl (lvl + 1) (nlPad pad ind lvl) rest f
      (by simp only [jsize] at hf; omega) (nlPad_ws hpad ind lvl)
    have hob1 : (obrace = '"') = False := by decide
    have hob2 : (obrace = '[') = False := by decide
    have hqb : (('"' : Char) = cbrace) = False := by decide
    simp [hsk, hob1, hob2, hqb, hfields]
termination_by v => sizeOf v
decreasing_by all_goals (simp_wf; try omega)

theorem rt_elems (pad : List Char) (hpad : ∀ c ∈ pad, isWsChar c = true)
    (ind : Option Nat) :
    ∀ (e : Json) (tl : JsonList) (lvl : Nat) (W rest : List Char) (fuel : Nat),
      jsizeElems (JsonList.cons e tl) ≤ fuel →
      (∀ c ∈ W, isWsChar c = true) →
      parseElems fuel (dumpsP pad ind lvl e
        ++ (dumpsSepElems pad ind lvl tl ++ (W ++ ']' :: rest)))
        = some (JsonList.cons e tl, rest)
  | e, JsonList.nil, lvl, W, rest, fuel, hf, hW => by
    obtain ⟨f, rfl⟩ : ∃ f, fuel = f + 1 := ⟨fuel - 1, by
      simp only [jsizeElems] at hf; omega⟩
    rw [parseElems.eq_def]
    have hrest : dumpsSepElems pad ind lvl JsonList.nil ++ (W ++ ']' :: rest)
        = W ++ ']' :: rest := by
      simp [dumpsSepElems]
    rw [hrest]
    have hv := rt_val pad hpad ind e lvl (W ++ ']' :: rest) f
      (by simp only [jsizeElems] at hf; omega)
      (numSafe_ws_bracket hW ⟨by decide, by decide, by decide, by decide⟩ rest)
    have hsk : skipWs (W ++ ']' :: rest) = ']' :: rest := by
      rw [skipWs_append_ws _ hW, skipWs_cons_neg (by decide)]
    have hcm : ((']' : Char) = ',') = False := by decide
    simp [hv, hsk, hcm]
  | e, JsonList.cons e2 tl2, lvl, W, rest, fuel, hf, hW => by
    obtain ⟨f, rfl⟩ : ∃ f, fuel = f + 1 := ⟨fuel - 1, by
      simp only [jsizeElems] at hf; omega⟩
    rw [parseElems.eq_def]
    have hsep : dumpsSepElems pad ind lvl (JsonList.cons e2 tl2) ++ (W ++ ']' :: rest)
        = ',' :: (itemSepTail ind
          ++ (nlPad pad ind lvl ++ (dumpsP pad ind lvl e2
            ++ (dumpsSepElems pad ind lvl tl2 ++ (W ++ ']' :: rest))))) := by
      show (itemSep ind ++ nlPad pad ind lvl ++ dumpsP pad ind lvl e2
        ++ dumpsSepElems pad ind lvl tl2) ++ (W ++ ']' :: rest) = _
      rw [itemSep_eq]
      simp [List.append_assoc]
    rw [hsep]
    have hns2 : numSafe (',' :: (itemSepTail ind
        ++ (nlPad pad ind lvl ++ (dumpsP pad ind lvl e2
          ++ (dumpsSepElems pad ind lvl tl2 ++ (W ++ ']' :: rest)))))) = true := rfl
    have hv := rt_val pad hpad ind e lvl _ f
      (by simp only [jsizeElems] at hf; omega) hns2
    have hsk1 : skipWs (',' :: (itemSepTail ind
        ++ (nlPad pad ind lvl ++ (dumpsP pad ind lvl e2
          ++ (dumpsSepElems pad ind lvl tl2 ++ (W ++ ']' :: rest))))))
        = ',' :: (itemSepTail ind
          ++ (nlPad pad ind lvl ++ (dumpsP pad ind lvl e2
            ++ (dumpsSepElems pad ind lvl tl2 ++ (W ++ ']' :: rest))))) :=
      skipWs_cons_neg (by decide)
    obtain ⟨c2, t2, hct2, hws2, hrb2, hcb2⟩ := dumpsP_head_spec pad ind lvl e2
    have hsk2 : skipWs (itemSepTail ind
        ++ (nlPad pad ind lvl ++ (dumpsP pad ind lvl e2
          ++ (dumpsSepElems pad ind lvl tl2 ++ (W ++ ']' :: rest)))))
        = dumpsP pad ind lvl e2
          ++ (dumpsSepElems pad ind lvl tl2 ++ (W ++ ']' :: rest)) := by
      rw [skipWs_append_ws _ (itemSepTail_ws ind),
        skipWs_append_ws _ (nlPad_ws hpad ind lvl), hct2, List.cons_append,
        skipWs_cons_neg hws2, ← List.cons_append, ← hct2]
    have ih := rt_elems pad hpad ind e2 tl2 lvl W rest f
      (by simp only [jsizeElems] at hf ⊢; omega) hW
    simp [hv, hsk1, hsk2, ih]
termination_by e tl => sizeOf (JsonList.cons e tl)
decreasing_by all_goals (simp_wf; try omega)

theorem rt_fields (pad : List Char) (hpad : ∀ c ∈ pad, isWsChar c = true)
    (ind : Option Nat) :
    ∀ (k : List Char) (v : Json) (tl : JsonFields) (lvl : Nat)
      (W rest : List Char) (fuel : Nat),
      jsizeFields (JsonFields.cons k v tl) ≤ fuel →
      (∀ c ∈ W, isWsChar c = true) →
      parseMembers fuel ('"' :: (escapeStr k ++ '"' :: ':' :: ' '
        :: (dumpsP pad ind lvl v
          ++ (dumpsSepFields pad ind lvl tl ++ (W ++ cbrace :: rest)))))
        = some (JsonFields.cons k v tl, rest)
  | k, v, JsonFields.nil, lvl, W, rest, fuel, hf, hW => by
    obtain ⟨f, rfl⟩ : ∃ f, fuel = f + 1 := ⟨fuel - 1, by
      simp only [jsizeFields] at hf; omega⟩
    rw [parseMembers.eq_def]
    have hkey : parseStringBody (escapeStr k ++ '"' :: ':' :: ' '
        :: (dumpsP pad ind lvl v
          ++ (dumpsSepFields pad ind lvl JsonFields.nil ++ (W ++ cbrace :: rest))))
        = some (k, ':' :: ' ' :: (dumpsP pad ind lvl v
          ++ (dumpsSepFields pad ind lvl JsonFields.nil ++ (W ++ cbrace :: rest)))) :=
      parseStringBody_escape k _
    obtain ⟨c0, t0, hct0, hws0, hrb0, hcb0⟩ := dumpsP_head_spec pad ind lvl v
    have hsk0 : skipWs (' ' :: (dumpsP pad ind lvl v
        ++ (dumpsSepFields pad ind lvl JsonFields.nil ++ (W ++ cbrace :: rest))))
        = dumpsP pad ind lvl v
          ++ (dumpsSepFields pad ind lvl JsonFields.nil ++ (W ++ cbrace :: rest)) := by
      rw [show (' ' :: (dumpsP pad ind lvl v
        ++ (dumpsSepFields pad ind lvl JsonFields.nil ++ (W ++ cbrace :: rest))))
        = [' '] ++ (dumpsP pad ind lvl v
          ++ (dumpsSepFields pad ind lvl JsonFields.nil ++ (W ++ cbrace :: rest))) from rfl,
        skipWs_append_ws _ (by intro c hc; simp at hc; subst hc; rfl),
        hct0, List.cons_append, skipWs_cons_neg hws0, ← List.cons_append, ← hct0]
    have hrest : dumpsSepFields pad ind lvl JsonFields.nil ++ (W ++ cbrace :: rest)
        = W ++ cbrace :: rest := by
      simp [dumpsSepFields]
    rw [hrest] at hkey hsk0 ⊢
    have hv := rt_val pad hpad ind v lvl (W ++ cbrace :: rest) f
      (by simp only [jsizeFields] at hf; omega)
      (numSafe_ws_bracket hW ⟨by decide, by decide, by decide, by decide⟩ rest)
    have hsk : skipWs (W ++ cbrace :: rest) = cbrace :: rest := by
      rw [skipWs_append_ws _ hW, skipWs_cons_neg (by decide)]
    have hcc : ((':' : Char) = ',') = False := by decide
    have hcb2 : (cbrace = ',') = False := by decide
    simp [hkey, hsk0, hv, hsk, hcc, hcb2, skipWs_colon]
  | k, v, JsonFields.cons k2 v2 tl2, lvl, W, rest, fuel, hf, hW => by
    obtain ⟨f, rfl⟩ : ∃ f, fuel = f + 1 := ⟨fuel - 1, by
      simp only [jsizeFields] at hf; omega⟩
    rw [parseMembers.eq_def]
    have hkey : parseStringBody (escapeStr k ++ '"' :: ':' :: ' '
        :: (dumpsP pad ind lvl v
          ++ (dumpsSepFields pad ind lvl (JsonFields.cons k2 v2 tl2) ++ (W ++ cbrace :: rest))))
        = some (k, ':' :: ' ' :: (dumpsP pad ind lvl v
          ++ (dumpsSepFields pad ind lvl (JsonFields.cons k2 v2 tl2) ++ (W ++ cbrace :: rest)))) :=
      parseStringBody_escape k _
    obtain ⟨c0, t0, hct0, hws0, hrb0, hcb0⟩ := dumpsP_head_spec pad ind lvl v
    have hsk0 : skipWs (' ' :: (dumpsP pad ind lvl v
        ++ (dumpsSepFields pad ind lvl (JsonFields.cons k2 v2 tl2) ++ (W ++ cbrace :: rest))))
        = dumpsP pad ind lvl v
          ++ (dumpsSepFields pad ind lvl (JsonFields.cons k2 v2 tl2) ++ (W ++ cbrace :: rest)) := by
      rw [show (' ' :: (dumpsP pad ind lvl v
        ++ (dumpsSepFields pad ind lvl (JsonFields.cons k2 v2 tl2) ++ (W ++ cbrace :: rest))))
        = [' '] ++ (dumpsP pad ind lvl v
          ++ (dumpsSepFields pad ind lvl (JsonFields.cons k2 v2 tl2) ++ (W ++ cbrace :: rest))) from rfl,
        skipWs_append_ws _ (by intro c hc; simp at hc; subst hc; rfl),
        hct0, List.cons_append, skipWs_cons_neg hws0, ← List.cons_append, ← hct0]
    have hsep : dumpsSepFields pad ind lvl (JsonFields.cons k2 v2 tl2)
        ++ (W ++ cbrace :: rest)
        = ',' :: (itemSepTail ind
          ++ (nlPad pad ind lvl ++ ('"' :: (escapeStr k2 ++ '"' :: ':' :: ' '
            :: (dumpsP pad ind lvl v2
              ++ (dumpsSepFields pad ind lvl tl2 ++ (W ++ cbrace :: rest))))))) := by
      show (itemSep ind ++ nlPad pad ind lvl
        ++ '"' :: (escapeStr k2 ++ '"' :: ':' :: ' ' :: dumpsP pad ind lvl v2)
        ++ dumpsSepFields pad ind lvl tl2) ++ (W ++ cbrace :: rest) = _
      rw [itemSep_eq]
      simp [List.append_assoc]
    rw [hsep] at hkey hsk0 ⊢
    have hns2 : numSafe (',' :: (itemSepTail ind
        ++ (nlPad pad ind lvl ++ ('"' :: (escapeStr k2 ++ '"' :: ':' :: ' '
          :: (dumpsP pad ind lvl v2
            ++ (dumpsSepFields pad ind lvl tl2 ++ (W ++ cbrace :: rest)))))))) = true := rfl
    have hv := rt_val pad hpad ind v lvl _ f
      (by simp only [jsizeFields] at hf; omega) hns2
    have hsk1 : skipWs (',' :: (itemSepTail ind
        ++ (nlPad pad ind lvl ++ ('"' :: (escapeStr k2 ++ '"' :: ':' :: ' '
          :: (dumpsP pad ind lvl v2
            ++ (dumpsSepFields pad ind lvl tl2 ++ (W ++ cbrace :: rest))))))))
        = ',' :: (itemSepTail ind
          ++ (nlPad pad ind lvl ++ ('"' :: (escapeStr k2 ++ '"' :: ':' :: ' '
            :: (dumpsP pad ind lvl v2
              ++ (dumpsSepFields pad ind lvl tl2 ++ (W ++ cbrace :: rest))))))) :=
      skipWs_cons_neg (by decide)
    have hsk2 : skipWs (itemSepTail ind
        ++ (nlPad pad ind lvl ++ ('"' :: (escapeStr k2 ++ '"' :: ':' :: ' '
          :: (dumpsP pad ind lvl v2
            ++ (dumpsSepFields pad ind lvl tl2 ++ (W ++ cbrace :: rest)))))))
        = '"' :: (escapeStr k2 ++ '"' :: ':' :: ' ' :: (dumpsP pad ind lvl v2
          ++ (dumpsSepFields pad ind lvl tl2 ++ (W ++ cbrace :: rest)))) := by
      rw [skipWs_append_ws _ (itemSepTail_ws ind),
        skipWs_append_ws _ (nlPad_ws hpad ind lvl), skipWs_cons_neg (by decide)]
    have ih := rt_fields pad hpad ind k2 v2 tl2 lvl W rest f
      (by simp only [jsizeFields] at hf ⊢; omega) hW
    have hcc : ((':' : Char) = ',') = False := by decide
    simp [hkey, hsk0, hv, hsk1, hsk2, ih, hcc, skipWs_colon]
termination_by k v tl => sizeOf (JsonFields.cons k v tl)
decreasing_by all_goals (simp_wf; try omega)
end

/-! ### Fuel bounds -/

theorem sep_slack (pad : List Char) (ind : Option Nat) (lvl : Nat) :
    2 ≤ (itemSep ind).length + (nlPad pad ind lvl).length := by
  match ind with
  | none => simp [itemSep, nlPad]
  | some w =>
    simp only [itemSep, nlPad, List.length_cons, List.length_append,
      List.length_replicate]
    omega

mutual
theorem jsize_le_len (pad : List Char) (ind : Option Nat) :
    ∀ (v : Json) (lvl : Nat), jsize v ≤ (dumpsP pad ind lvl v).length
  | Json.null, lvl => by simp [dumpsP, jsize]
  | Json.bool true, lvl => by simp [dumpsP, jsize]
  | Json.bool false, lvl => by simp [dumpsP, jsize]
  | Json.int n, lvl => by
    show jsize (Json.int n) ≤ (intRepr n).length
    have hlen : 1 ≤ (intRepr n).length := by
      by_cases hn : n < 0
      · simp [intRepr, hn]
      · simp only [intRepr, if_neg hn]
        match hnd : natDigits n.toNat with
        | [] => exact absurd hnd (natDigits_ne_nil _)
        | c :: t => simp
    simpa [jsize] using hlen
  | Json.str s, lvl => by simp [dumpsP, jsize]
  | Json.arr JsonList.nil, lvl => by simp [dumpsP, jsize, jsizeElems]
  | Json.arr (JsonList.cons e tl), lvl => by
    have h1 := jsize_le_len pad ind e (lvl + 1)
    have h2 := jsizeSep_le_len pad ind tl (lvl + 1)
    simp only [dumpsP, jsize, jsizeElems, List.length_cons, List.length_append,
      List.length_singleton]
    omega
  | Json.obj JsonFields.nil, lvl => by simp [dumpsP, jsize, jsizeFields]
  | Json.obj (JsonFields.cons k v tl), lvl => by
    have h1 := jsize_le_len pad ind v (lvl + 1)
    have h2 := jsizeSepF_le_len pad ind tl (lvl + 1)
    simp only [dumpsP, jsize, jsizeFields, List.length_cons, List.length_append,
      List.length_singleton]
    omega
termination_by v lvl => sizeOf v
decreasing_by all_goals (simp_wf; try omega)

theorem jsizeSep_le_len (pad : List Char) (ind : Option Nat) :
    ∀ (tl : JsonList) (lvl : Nat),
      jsizeElems tl ≤ (dumpsSepElems pad ind lvl tl).length
  | JsonList.nil, lvl => by simp [dumpsSepElems, jsizeElems]
  | JsonList.cons e tl, lvl => by
    have h1 := jsize_le_len pad ind e lvl
    have h2 := jsizeSep_le_len pad ind tl lvl
    have h3 := sep_slack pad ind lvl
    simp only [dumpsSepElems, jsizeElems, List.length_append]
    omega
termination_by tl lvl => sizeOf tl
decreasing_by all_goals (simp_wf; try omega)

theorem jsizeSepF_le_len (pad : List Char) (ind : Option Nat) :
    ∀ (tl : JsonFields) (lvl : Nat),
      jsizeFields tl ≤ (dumpsSepFields pad ind lvl tl).length
  | JsonFields.nil, lvl => by simp [dumpsSepFields, jsizeFields]
  | JsonFields.cons k v tl, lvl => by
    have h1 := jsize_le_len pad ind v lvl
    have h2 := jsizeSepF_le_len pad ind tl lvl
    have h3 := sep_slack pad ind lvl
    simp only [dumpsSepFields, jsizeFields, List.length_append, List.length_cons]
    omega
termination_by tl lvl => sizeOf tl
decreasing_by all_goals (simp_wf; try omega)
end

/-! ### Padding and `splitlines` -/

theorem digitChar_ne_nl (m : Nat) (h : m < 16) : (Nat.digitChar m = '\n') = False := by
  interval_cases m <;> decide


theorem insertAfterNl_append (padL a b : List Char) :
    insertAfterNl padL (a ++ b) = insertAfterNl padL a ++ insertAfterNl padL b := by
  induction a with
  | nil => rfl
  | cons c t ih =>
    by_cases hc : c = '\n'
    · subst hc
      simp [insertAfterNl, ih]
    · simp [insertAfterNl, hc, ih]

theorem insertAfterNl_no_nl (padL : List Char) {a : List Char}
    (h : ∀ c ∈ a, (c = '\n') = False) : insertAfterNl padL a = a := by
  induction a with
  | nil => rfl
  | cons c t ih =>
    have hc := h c (List.mem_cons_self c t)
    simp only [insertAfterNl, hc]
    simp only [if_false]
    rw [ih (fun x hx => h x (List.mem_cons_of_mem c hx))]

theorem escapeChar_no_nl (c : Char) : ∀ x ∈ escapeChar c, (x = '\n') = False := by
  intro x hx
  simp only [eq_iff_iff, iff_false]
  intro hxe
  subst hxe
  unfold escapeChar at hx
  split at hx
  · simp at hx
  · split at hx
    · simp at hx
    · split at hx
      · simp at hx
      · split at hx
        · simp at hx
        · split at hx
          · simp at hx
          · split at hx
            · simp at hx
            · split at hx
              · simp at hx
              · split at hx
                · simp only [List.mem_cons, List.mem_singleton,
                    List.not_mem_nil, or_false] at hx
                  rcases hx with h | h | h | h | h | h
                  · exact absurd h (by decide)
                  · exact absurd h (by decide)
                  · exact absurd h (by decide)
                  · exact absurd h (by decide)
                  · have h16 : (Char.toNat c) / 16 < 16 := by
                      rename_i hlt _
                      omega
                    have hds := digitChar_ne_nl _ h16
                    rw [← h.symm] at hds
                    simp at hds
                  · have h16 : (Char.toNat c) % 16 < 16 := Nat.mod_lt _ (by omega)
                    have hds := digitChar_ne_nl _ h16
                    rw [← h.symm] at hds
                    simp at hds
                · rename_i hq hb hbs hf hn hr ht hlt
                  simp only [List.mem_singleton] at hx
                  subst hx
                  exact hn rfl

theorem escapeStr_no_nl (s : List Char) : ∀ x ∈ escapeStr s, (x = '\n') = False := by
  intro x hx
  simp only [escapeStr, List.mem_flatten, List.mem_map] at hx
  obtain ⟨l, ⟨c, _, rfl⟩, hxl⟩ := hx
  exact escapeChar_no_nl c x hxl

theorem intRepr_no_nl (n : Int) : ∀ x ∈ intRepr n, (x = '\n') = False := by
  intro x hx
  simp only [eq_iff_iff, iff_false]
  intro hxe
  subst hxe
  have hdig : ∀ m, ('\n') ∈ natDigits m → False := by
    intro m hm
    have := natDigits_all_digits m _ hm
    rw [char_isDigit_iff] at this
    have h10 : ('\n').toNat = 10 := rfl
    omega
  by_cases hn : n < 0
  · simp only [intRepr, if_pos hn, List.mem_cons] at hx
    rcases hx with h | h
    · exact absurd h (by decide)
    · exact hdig _ h
  · simp only [intRepr, if_neg hn] at hx
    exact hdig _ hx

theorem insertAfterNl_nlPad (padL : List Char) (ind : Option Nat) (lvl : Nat) :
    insertAfterNl padL (nlPad [] ind lvl) = nlPad padL ind lvl := by
  match ind with
  | none => rfl
  | some w =>
    show insertAfterNl padL ('\n' :: ([] ++ List.replicate (w * lvl) ' '))
      = '\n' :: (padL ++ List.replicate (w * lvl) ' ')
    have hrep : insertAfterNl padL (List.replicate (w * lvl) ' ')
        = List.replicate (w * lvl) ' ' := by
      apply insertAfterNl_no_nl
      intro c hc
      rw [List.mem_replicate] at hc
      rw [hc.2]
      decide
    simp [insertAfterNl, hrep]

theorem insertAfterNl_itemSep (padL : List Char) (ind : Option Nat) :
    insertAfterNl padL (itemSep ind) = itemSep ind := by
  match ind with
  | none => rfl
  | some _ => rfl

mutual
theorem insertAfterNl_dumpsP (padL : List Char) (ind : Option Nat) :
    ∀ (v : Json) (lvl : Nat),
      insertAfterNl padL (dumpsP [] ind lvl v) = dumpsP padL ind lvl v
  | Json.null, lvl => rfl
  | Json.bool true, lvl => rfl
  | Json.bool false, lvl => rfl
  | Json.int n, lvl => by
    show insertAfterNl padL (intRepr n) = intRepr n
    exact insertAfterNl_no_nl padL (intRepr_no_nl n)
  | Json.str s, lvl => by
    show insertAfterNl padL ('"' :: (escapeStr s ++ ['"'])) = '"' :: (escapeStr s ++ ['"'])
    simp only [insertAfterNl, if_neg (by decide : ¬(('"' : Char) = '\n'))]
    rw [insertAfterNl_append, insertAfterNl_no_nl padL (escapeStr_no_nl s)]
    rfl
  | Json.arr JsonList.nil, lvl => rfl
  | Json.arr (JsonList.cons e tl), lvl => by
    show insertAfterNl padL ('[' :: (nlPad [] ind (lvl + 1) ++ dumpsP [] ind (lvl + 1) e
      ++ dumpsSepElems [] ind (lvl + 1) tl ++ nlPad [] ind lvl ++ [']'])) = _
    simp only [insertAfterNl, if_neg (by decide : ¬(('[' : Char) = '\n'))]
    rw [List.append_assoc, List.append_assoc, List.append_assoc,
      insertAfterNl_append, insertAfterNl_append, insertAfterNl_append,
      insertAfterNl_append, insertAfterNl_nlPad,
      insertAfterNl_dumpsP padL ind e (lvl + 1),
      insertAfterNl_sepElems padL ind tl (lvl + 1), insertAfterNl_nlPad]
    show _ = '[' :: (nlPad padL ind (lvl + 1) ++ dumpsP padL ind (lvl + 1) e
      ++ dumpsSepElems padL ind (lvl + 1) tl ++ nlPad padL ind lvl ++ [']'])
    simp only [List.append_assoc]
    rfl
  | Json.obj JsonFields.nil, lvl => rfl
  | Json.obj (JsonFields.cons k v tl), lvl => by
    show insertAfterNl padL (obrace :: (nlPad [] ind (lvl + 1)
      ++ '"' :: (escapeStr k ++ '"' :: ':' :: ' ' :: dumpsP [] ind (lvl + 1) v)
      ++ dumpsSepFields [] ind (lvl + 1) tl ++ nlPad [] ind lvl ++ [cbrace])) = _
    simp only [insertAfterNl, if_neg (by decide : ¬(obrace = '\n'))]
    rw [List.append_assoc, List.append_assoc, List.append_assoc,
      insertAfterNl_append, insertAfterNl_append, insertAfterNl_append,
      insertAfterNl_append, insertAfterNl_nlPad]
    rw [show insertAfterNl padL ('"' :: (escapeStr k ++ '"' :: ':' :: ' '
        :: dumpsP [] ind (lvl + 1) v))
      = '"' :: (escapeStr k ++ '"' :: ':' :: ' ' :: dumpsP padL ind (lvl + 1) v) by
      simp only [insertAfterNl, if_neg (by decide : ¬(('"' : Char) = '\n'))]
      rw [insertAfterNl_append, insertAfterNl_no_nl padL (escapeStr_no_nl k)]
      simp only [insertAfterNl, if_neg (by decide : ¬(('"' : Char) = '\n')),
        if_neg (by decide : ¬((':' : Char) = '\n')),
        if_neg (by decide : ¬((' ' : Char) = '\n'))]
      rw [insertAfterNl_dumpsP padL ind v (lvl + 1)]]
    rw [insertAfterNl_sepFields padL ind tl (lvl + 1), insertAfterNl_nlPad]
    show _ = obrace :: (nlPad padL ind (lvl + 1)
      ++ '"' :: (escapeStr k ++ '"' :: ':' :: ' ' :: dumpsP padL ind (lvl + 1) v)
      ++ dumpsSepFields padL ind (lvl + 1) tl ++ nlPad padL ind lvl ++ [cbrace])
    simp only [List.append_assoc]
    rfl
termination_by v lvl => sizeOf v
decreasing_by all_goals (simp_wf; try omega)

theorem insertAfterNl_sepElems (padL : List Char) (ind : Option Nat) :
    ∀ (tl : JsonList) (lvl : Nat),
      insertAfterNl padL (dumpsSepElems [] ind lvl tl) = dumpsSepElems padL ind lvl tl
  | JsonList.nil, lvl => rfl
  | JsonList.cons e tl, lvl => by
    show insertAfterNl padL (itemSep ind ++ nlPad [] ind lvl ++ dumpsP [] ind lvl e
      ++ dumpsSepElems [] ind lvl tl) = _
    rw [List.append_assoc, List.append_assoc, insertAfterNl_append,
      insertAfterNl_append, insertAfterNl_append, insertAfterNl_itemSep,
      insertAfterNl_nlPad, insertAfterNl_dumpsP padL ind e lvl,
      insertAfterNl_sepElems padL ind tl lvl]
    show _ = itemSep ind ++ nlPad padL ind lvl ++ dumpsP padL ind lvl e
      ++ dumpsSepElems padL ind lvl tl
    simp only [List.append_assoc]
termination_by tl lvl => sizeOf tl
decreasing_by all_goals (simp_wf; try omega)

theorem insertAfterNl_sepFields (padL : List Char) (ind : Option Nat) :
    ∀ (tl : JsonFields) (lvl : Nat),
      insertAfterNl padL (dumpsSepFields [] ind lvl tl) = dumpsSepFields padL ind lvl tl
  | JsonFields.nil, lvl => rfl
  | JsonFields.cons k v tl, lvl => by
    show insertAfterNl padL (itemSep ind ++ nlPad [] ind lvl
      ++ '"' :: (escapeStr k ++ '"' :: ':' :: ' ' :: dumpsP [] ind lvl v)
      ++ dumpsSepFields [] ind lvl tl) = _
    rw [List.append_assoc, List.append_assoc, insertAfterNl_append,
      insertAfterNl_append, insertAfterNl_append, insertAfterNl_itemSep,
      insertAfterNl_nlPad]
    rw [show insertAfterNl padL ('"' :: (escapeStr k ++ '"' :: ':' :: ' '
        :: dumpsP [] ind lvl v))
      = '"' :: (escapeStr k ++ '"' :: ':' :: ' ' :: dumpsP padL ind lvl v) by
      simp only [insertAfterNl, if_neg (by decide : ¬(('"' : Char) = '\n'))]
      rw [insertAfterNl_append, insertAfterNl_no_nl padL (escapeStr_no_nl k)]
      simp only [insertAfterNl, if_neg (by decide : ¬(('"' : Char) = '\n')),
        if_neg (by decide : ¬((':' : Char) = '\n')),
        if_neg (by decide : ¬((' ' : Char) = '\n'))]
      rw [insertAfterNl_dumpsP padL ind v lvl]]
    rw [insertAfterNl_sepFields padL ind tl lvl]
    show _ = itemSep ind ++ nlPad padL ind lvl
      ++ '"' :: (escapeStr k ++ '"' :: ':' :: ' ' :: dumpsP padL ind lvl v)
      ++ dumpsSepFields padL ind lvl tl
    simp only [List.append_assoc]
termination_by tl lvl => sizeOf tl
decreasing_by all_goals (simp_wf; try omega)
end

/-! ### Line-break analysis of renderings -/

theorem isLineBreak_codes {c : Char} (h : isLineBreak c = true) :
    c.toNat = 10 ∨ c.toNat = 13 ∨ c.toNat = 11 ∨ c.toNat = 12 ∨ c.toNat = 28 ∨
      c.toNat = 29 ∨ c.toNat = 30 ∨ c.toNat = 133 ∨ c.toNat = 8232 ∨
      c.toNat = 8233 := by
  simp only [isLineBreak, Bool.or_eq_true, decide_eq_true_eq] at h
  rcases h with ((((((((h | h) | h) | h) | h) | h) | h) | h) | h) | h
  · left; rw [h]; rfl
  · right; left; rw [h]; rfl
  all_goals tauto

theorem nl_of_toNat {c : Char} (h : c.toNat = 10) : c = '\n' := by
  rw [char_eq_iff_toNat]
  exact h

theorem digitChar_not_break (m : Nat) (h : m < 16) :
    isLineBreak (Nat.digitChar m) = false := by
  interval_cases m <;> decide

theorem isLineBreak_of_digit {c : Char} (h : c.isDigit = true) :
    isLineBreak c = false := by
  rw [char_isDigit_iff] at h
  by_contra hb
  rw [Bool.not_eq_false] at hb
  rcases isLineBreak_codes hb with h1 | h1 | h1 | h1 | h1 | h1 | h1 | h1 | h1 | h1 <;>
    omega

theorem escapeChar_breaks {c : Char} (ht : tameChar c = true) :
    ∀ x ∈ escapeChar c, isLineBreak x = false := by
  intro x hx
  by_cases h1 : c = '"'
  · subst h1
    rw [show escapeChar '"' = ['\\', '"'] from rfl] at hx
    simp only [List.mem_cons, List.not_mem_nil, or_false] at hx
    rcases hx with h | h <;> (subst h; decide)
  · by_cases h2 : c = '\\'
    · subst h2
      rw [show escapeChar '\\' = ['\\', '\\'] from rfl] at hx
      simp only [List.mem_cons, List.not_mem_nil, or_false] at hx
      rcases hx with h | h <;> (subst h; decide)
    · by_cases h3 : c = Char.ofNat 8
      · subst h3
        rw [show escapeChar (Char.ofNat 8) = ['\\', 'b'] from rfl] at hx
        simp only [List.mem_cons, List.not_mem_nil, or_false] at hx
        rcases hx with h | h <;> (subst h; decide)
      · by_cases h4 : c = Char.ofNat 12
        · subst h4
          rw [show escapeChar (Char.ofNat 12) = ['\\', 'f'] from rfl] at hx
          simp only [List.mem_cons, List.not_mem_nil, or_false] at hx
          rcases hx with h | h <;> (subst h; decide)
        · by_cases h5 : c = '\n'
          · subst h5
            rw [show escapeChar '\n' = ['\\', 'n'] from rfl] at hx
            simp only [List.mem_cons, List.not_mem_nil, or_false] at hx
            rcases hx with h | h <;> (subst h; decide)
          · by_cases h6 : c = '\r'
            · subst h6
              rw [show escapeChar '\r' = ['\\', 'r'] from rfl] at hx
              simp only [List.mem_cons, List.not_mem_nil, or_false] at hx
              rcases hx with h | h <;> (subst h; decide)
            · by_cases h7 : c = '\t'
              · subst h7
                rw [show escapeChar '\t' = ['\\', 't'] from rfl] at hx
                simp only [List.mem_cons, List.not_mem_nil, or_false] at hx
                rcases hx with h | h <;> (subst h; decide)
              · by_cases h8 : c.toNat < 32
                · have hesc : escapeChar c = ['\\', 'u', '0', '0',
                      Nat.digitChar (c.toNat / 16), Nat.digitChar (c.toNat % 16)] := by
                    simp [escapeChar, h1, h2, h3, h4, h5, h6, h7, h8]
                  rw [hesc] at hx
                  simp only [List.mem_cons, List.not_mem_nil, or_false] at hx
                  rcases hx with h | h | h | h | h | h
                  · subst h; decide
                  · subst h; decide
                  · subst h; decide
                  · subst h; decide
                  · rw [h]
                    exact digitChar_not_break _ (by omega)
                  · rw [h]
                    exact digitChar_not_break _ (Nat.mod_lt _ (by omega))
                · have hesc : escapeChar c = [c] := by
                    simp [escapeChar, h1, h2, h3, h4, h5, h6, h7, h8]
                  rw [hesc] at hx
                  simp only [List.mem_singleton] at hx
                  subst hx
                  by_contra hb
                  rw [Bool.not_eq_false] at hb
                  simp only [tameChar, Bool.not_eq_true', Bool.or_eq_false_iff,
                    decide_eq_false_iff_not] at ht
                  rcases isLineBreak_codes hb with
                    hc | hc | hc | hc | hc | hc | hc | hc | hc | hc
                  all_goals first
                    | (exact absurd hc ht.1.2)
                    | (exact absurd hc ht.2)
                    | (exact absurd hc ht.1.1)
                    | (exact h8 (by omega))

theorem escapeStr_breaks {s : List Char} (ht : s.all tameChar = true) :
    ∀ x ∈ escapeStr s, isLineBreak x = false := by
  intro x hx
  simp only [escapeStr, List.mem_flatten, List.mem_map] at hx
  obtain ⟨l, ⟨c, hc, rfl⟩, hxl⟩ := hx
  rw [List.all_eq_true] at ht
  exact escapeChar_breaks (ht c hc) x hxl

theorem intRepr_breaks (n : Int) : ∀ x ∈ intRepr n, isLineBreak x = false := by
  intro x hx
  by_cases hn : n < 0
  · simp only [intRepr, if_pos hn, List.mem_cons] at hx
    rcases hx with h | h
    · subst h; decide
    · exact isLineBreak_of_digit (natDigits_all_digits _ _ h)
  · simp only [intRepr, if_neg hn] at hx
    exact isLineBreak_of_digit (natDigits_all_digits _ _ hx)

theorem nlPad_breaks (ind : Option Nat) (lvl : Nat) :
    ∀ x ∈ nlPad [] ind lvl, isLineBreak x = true → x = '\n' := by
  intro x hx _
  match ind with
  | none => simp [nlPad] at hx
  | some w =>
    simp only [nlPad, List.nil_append, List.mem_cons, List.mem_replicate] at hx
    rcases hx with h | h
    · exact h
    · rename_i hb
      rw [h.2] at hb
      exact absurd hb (by decide)

theorem itemSep_breaks (ind : Option Nat) :
    ∀ x ∈ itemSep ind, isLineBreak x = false := by
  intro x hx
  rw [itemSep_eq] at hx
  match ind with
  | none =>
    simp only [itemSepTail, List.mem_cons, List.not_mem_nil, or_false] at hx
    rcases hx with h | h <;> (subst h; decide)
  | some _ =>
    simp only [itemSepTail, List.mem_cons, List.not_mem_nil, or_false] at hx
    subst hx
    decide

mutual
theorem dumpsP_breaks (ind : Option Nat) :
    ∀ (v : Json) (lvl : Nat), cleanJson v = true →
      ∀ x ∈ dumpsP [] ind lvl v, isLineBreak x = true → x = '\n'
  | Json.null, lvl => by
    intro _ x hx _
    rename_i hb
    simp only [dumpsP, List.mem_cons, List.not_mem_nil, or_false] at hx
    rcases hx with h | h | h | h <;> (subst h; exact absurd hb (by decide))
  | Json.bool true, lvl => by
    intro _ x hx hb
    simp only [dumpsP, List.mem_cons, List.not_mem_nil, or_false] at hx
    rcases hx with h | h | h | h <;> (subst h; exact absurd hb (by decide))
  | Json.bool false, lvl => by
    intro _ x hx hb
    simp only [dumpsP, List.mem_cons, List.not_mem_nil, or_false] at hx
    rcases hx with h | h | h | h | h <;> (subst h; exact absurd hb (by decide))
  | Json.int n, lvl => by
    intro _ x hx hb
    exact absurd hb (by simp [intRepr_breaks n x hx])
  | Json.str s, lvl => by
    intro hc x hx hb
    simp only [dumpsP, List.mem_cons, List.mem_append, List.mem_singleton,
      List.not_mem_nil, or_false] at hx
    rcases hx with h | h | h
    · subst h; exact absurd hb (by decide)
    · exact absurd hb (by simp [escapeStr_breaks (by simpa [cleanJson] using hc) x h])
    · subst h; exact absurd hb (by decide)
  | Json.arr JsonList.nil, lvl => by
    intro _ x hx hb
    simp only [dumpsP, List.mem_cons, List.not_mem_nil, or_false] at hx
    rcases hx with h | h <;> (subst h; exact absurd hb (by decide))
  | Json.arr (JsonList.cons e tl), lvl => by
    intro hc x hx hb
    have hce : cleanJson e = true ∧ cleanElems tl = true := by
      simpa [cleanJson, cleanElems, Bool.and_eq_true] using hc
    simp only [dumpsP, List.mem_cons, List.mem_append, List.mem_singleton,
      List.not_mem_nil, or_false] at hx
    rcases hx with h | ((((h | h) | h) | h) | h)
    · subst h; exact absurd hb (by decide)
    · exact nlPad_breaks ind (lvl + 1) x h hb
    · exact dumpsP_breaks ind e (lvl + 1) hce.1 x h hb
    · exact sepElems_breaks ind tl (lvl + 1) hce.2 x h hb
    · exact nlPad_breaks ind lvl x h hb
    · subst h; exact absurd hb (by decide)
  | Json.obj JsonFields.nil, lvl => by
    intro _ x hx hb
    simp only [dumpsP, List.mem_cons, List.not_mem_nil, or_false] at hx
    rcases hx with h | h <;> (subst h; exact absurd hb (by decide))
  | Json.obj (JsonFields.cons k v tl), lvl => by
    intro hc x hx hb
    have hck : (k.all tameChar = true ∧ cleanJson v = true) ∧ cleanFields tl = true := by
      simpa [cleanJson, cleanFields, Bool.and_eq_true, and_assoc] using hc
    simp only [dumpsP, List.mem_cons, List.mem_append, List.mem_singleton,
      List.not_mem_nil, or_false] at hx
    rcases hx with h | ((((h | h) | h) | h) | h)
    · subst h; exact absurd hb (by decide)
    · exact nlPad_breaks ind (lvl + 1) x h hb
    · rcases h with h | h
      · subst h; exact absurd hb (by decide)
      · rcases h with h | h | h | h | h
        · exact absurd hb (by simp [escapeStr_breaks hck.1.1 x h])
        · subst h; exact absurd hb (by decide)
        · subst h; exact absurd hb (by decide)
        · subst h; exact absurd hb (by decide)
        · exact dumpsP_breaks ind v (lvl + 1) hck.1.2 x h hb
    · exact sepFields_breaks ind tl (lvl + 1) hck.2 x h hb
    · exact nlPad_breaks ind lvl x h hb
    · subst h; exact absurd hb (by decide)
termination_by v lvl => sizeOf v
decreasing_by all_goals (simp_wf; try omega)

theorem sepElems_breaks (ind : Option Nat) :
    ∀ (tl : JsonList) (lvl : Nat), cleanElems tl = true →
      ∀ x ∈ dumpsSepElems [] ind lvl tl, isLineBreak x = true → x = '\n'
  | JsonList.nil, lvl => by
    intro _ x hx _
    simp [dumpsSepElems] at hx
  | JsonList.cons e tl, lvl => by
    intro hc x hx hb
    have hce : cleanJson e = true ∧ cleanElems tl = true := by
      simpa [cleanElems, Bool.and_eq_true] using hc
    simp only [dumpsSepElems, List.mem_append] at hx
    rcases hx with ((h | h) | h) | h
    · exact absurd hb (by simp [itemSep_breaks ind x h])
    · exact nlPad_breaks ind lvl x h hb
    · exact dumpsP_breaks ind e lvl hce.1 x h hb
    · exact sepElems_breaks ind tl lvl hce.2 x h hb
termination_by tl lvl => sizeOf tl
decreasing_by all_goals (simp_wf; try omega)

theorem sepFields_breaks (ind : Option Nat) :
    ∀ (tl : JsonFields) (lvl : Nat), cleanFields tl = true →
      ∀ x ∈ dumpsSepFields [] ind lvl tl, isLineBreak x = true → x = '\n'
  | JsonFields.nil, lvl => by
    intro _ x hx _
    simp [dumpsSepFields] at hx
  | JsonFields.cons k v tl, lvl => by
    intro hc x hx hb
    have hck : (k.all tameChar = true ∧ cleanJson v = true) ∧ cleanFields tl = true := by
      simpa [cleanFields, Bool.and_eq_true, and_assoc] using hc
    simp only [dumpsSepFields, List.mem_append] at hx
    rcases hx with ((h | h) | h) | h
    · exact absurd hb (by simp [itemSep_breaks ind x h])
    · exact nlPad_breaks ind lvl x h hb
    · simp only [List.mem_cons, List.mem_append] at h
      rcases h with h | h
      · subst h; exact absurd hb (by decide)
      · rcases h with h | h | h | h | h
        · exact absurd hb (by simp [escapeStr_breaks hck.1.1 x h])
        · subst h; exact absurd hb (by decide)
        · subst h; exact absurd hb (by decide)
        · subst h; exact absurd hb (by decide)
        · exact dumpsP_breaks ind v lvl hck.1.2 x h hb
    · exact sepFields_breaks ind tl lvl hck.2 x h hb
termination_by tl lvl => sizeOf tl
decreasing_by all_goals (simp_wf; try omega)
end

/-! ### `to_json` in closed form -/

theorem lastIsNl_append_single : ∀ (X : List Char) (z : Char),
    lastIsNl (X ++ [z]) = decide (z = '\n')
  | [], _ => rfl
  | [_], _ => rfl
  | c :: c2 :: t, z => by
    show lastIsNl (c2 :: (t ++ [z])) = _
    exact lastIsNl_append_single (c2 :: t) z

theorem lastIsNl_cons_of_ne {c : Char} {t : List Char} (h : t ≠ []) :
    lastIsNl (c :: t) = lastIsNl t := by
  match t with
  | [] => exact absurd rfl h
  | x :: xs => rfl

theorem splitF_join (padL : List Char) : ∀ (fuel : Nat) (s acc : List Char),
    s.length < fuel →
    (∀ c ∈ s, isLineBreak c = true → c = '\n') → lastIsNl s = false →
    (acc ≠ [] ∨ s ≠ []) →
    ((splitlinesF fuel acc s).map (fun l => padL ++ l)).flatten
      = padL ++ (acc.reverse ++ insertAfterNl padL s)
  | 0, s, acc => fun h => absurd h (Nat.not_lt_zero _)
  | fuel + 1, [], acc => by
    intro _ _ _ hne
    have hacc : acc.isEmpty = false := by
      match acc, hne with
      | a :: as, _ => rfl
      | [], hne => simp at hne
    show ((if acc.isEmpty = true then ([] : List (List Char)) else [acc.reverse]).map
      (fun l => padL ++ l)).flatten = _
    rw [hacc]
    simp [insertAfterNl]
  | fuel + 1, c :: t, acc => by
    intro hfu hbr hlast _
    have hcr : ¬(c = '\r') := by
      intro h0
      have hx := hbr c (List.mem_cons_self c t) (by rw [h0]; decide)
      rw [h0] at hx
      exact absurd hx (by decide)
    show ((if c = '\r' then
        (match t with
          | '\n' :: t2 => (acc.reverse ++ ['\r', '\n']) :: splitlinesF fuel [] t2
          | _ => (acc.reverse ++ ['\r']) :: splitlinesF fuel [] t)
      else if isLineBreak c then (acc.reverse ++ [c]) :: splitlinesF fuel [] t
      else splitlinesF fuel (c :: acc) t).map (fun l => padL ++ l)).flatten = _
    rw [if_neg hcr]
    by_cases hc : isLineBreak c = true
    · have hcn : c = '\n' := hbr c (List.mem_cons_self c t) hc
      subst hcn
      have ht : t ≠ [] := by
        intro h0
        subst h0
        exact absurd hlast (by simp [lastIsNl])
      have hrec := splitF_join padL fuel t []
        (by simp at hfu; omega)
        (fun x hx => hbr x (List.mem_cons_of_mem _ hx))
        (by rw [← lastIsNl_cons_of_ne ht]; exact hlast)
        (Or.inr ht)
      rw [if_pos hc]
      simp only [List.map_cons, List.flatten_cons, hrec]
      simp [insertAfterNl, List.append_assoc]
    · rw [if_neg hc]
      have hcn : (c = '\n') = False := by
        simp only [eq_iff_iff, iff_false]
        intro h0
        rw [h0] at hc
        exact hc (by decide)
      have hlt : lastIsNl t = false := by
        match t with
        | [] => rfl
        | x :: xs =>
          rw [← lastIsNl_cons_of_ne (by simp : (x :: xs : List Char) ≠ [])]
          exact hlast
      have hrec := splitF_join padL fuel t (c :: acc)
        (by simp at hfu; omega)
        (fun x hx => hbr x (List.mem_cons_of_mem _ hx)) hlt
        (Or.inl (by simp))
      rw [hrec]
      simp [insertAfterNl, hcn, List.append_assoc]

theorem dumpsP_obj_lastIsNl (pad : List Char) (ind : Option Nat) (lvl : Nat)
    (r : Record) : lastIsNl (dumpsP pad ind lvl (Json.obj r)) = false := by
  match r with
  | JsonFields.nil =>
    show lastIsNl [obrace, cbrace] = false
    decide
  | JsonFields.cons k v tl =>
    show lastIsNl (obrace :: (nlPad pad ind (lvl + 1)
      ++ '"' :: (escapeStr k ++ '"' :: ':' :: ' ' :: dumpsP pad ind (lvl + 1) v)
      ++ dumpsSepFields pad ind (lvl + 1) tl ++ nlPad pad ind lvl ++ [cbrace])) = false
    rw [show (nlPad pad ind (lvl + 1)
      ++ '"' :: (escapeStr k ++ '"' :: ':' :: ' ' :: dumpsP pad ind (lvl + 1) v)
      ++ dumpsSepFields pad ind (lvl + 1) tl ++ nlPad pad ind lvl ++ [cbrace])
      = ((nlPad pad ind (lvl + 1)
        ++ '"' :: (escapeStr k ++ '"' :: ':' :: ' ' :: dumpsP pad ind (lvl + 1) v)
        ++ dumpsSepFields pad ind (lvl + 1) tl ++ nlPad pad ind lvl) ++ [cbrace]) from by
      simp [List.append_assoc]]
    rw [← List.cons_append, lastIsNl_append_single]
    decide

theorem dumpsP_obj_ne_nil (pad : List Char) (ind : Option Nat) (lvl : Nat)
    (r : Record) : dumpsP pad ind lvl (Json.obj r) ≠ [] := by
  obtain ⟨c, t, hct, _, _, _⟩ := dumpsP_head_spec pad ind lvl (Json.obj r)
  rw [hct]
  simp

theorem to_json_compact (r : Record) :
    to_json r none = dumpsP [] none 0 (Json.obj r) := rfl

theorem to_json_pretty (r : Record) (hc : cleanRec r = true) :
    to_json r (some 4) = List.replicate 8 ' '
      ++ dumpsP (List.replicate 8 ' ') (some 4) 0 (Json.obj r) := by
  show ((splitlinesF ((dumpsP [] (some 4) 0 (Json.obj r)).length + 1) []
    (dumpsP [] (some 4) 0 (Json.obj r))).map
    (fun l => List.replicate (2 * 4) ' ' ++ l)).flatten = _
  rw [splitF_join (List.replicate (2 * 4) ' ')
    ((dumpsP [] (some 4) 0 (Json.obj r)).length + 1)
    (dumpsP [] (some 4) 0 (Json.obj r)) []
    (by omega)
    (dumpsP_breaks (some 4) (Json.obj r) 0 hc)
    (dumpsP_obj_lastIsNl [] (some 4) 0 r)
    (Or.inr (dumpsP_obj_ne_nil [] (some 4) 0 r))]
  rw [insertAfterNl_dumpsP]
  rfl


/-! ### Parsing a complete document -/

theorem parseDoc_dumps (pad : List Char) (hpad : ∀ c ∈ pad, isWsChar c = true)
    (ind : Option Nat) (v : Json) : parseDoc (dumpsP pad ind 0 v) = some v := by
  obtain ⟨c, t, hct, hws, _, _⟩ := dumpsP_head_spec pad ind 0 v
  have hs : skipWs (dumpsP pad ind 0 v) = dumpsP pad ind 0 v := by
    rw [hct]
    exact skipWs_cons_neg hws
  have hv := rt_val pad hpad ind v 0 [] ((dumpsP pad ind 0 v).length + 1)
    (by have := jsize_le_len pad ind v 0; omega) rfl
  rw [List.append_nil] at hv
  show (match parseValue ((dumpsP pad ind 0 v).length + 1) (skipWs (dumpsP pad ind 0 v)) with
    | some (w, r) => if skipWs r = [] then some w else none
    | none => none) = some v
  rw [hs, hv]
  rfl

/-- Parsing a padded render: `parseDoc` skips the leading shift. -/
theorem parseDoc_pad_dumps (pad : List Char) (hpad : ∀ c ∈ pad, isWsChar c = true)
    (ind : Option Nat) (v : Json) : parseDoc (pad ++ dumpsP pad ind 0 v) = some v := by
  obtain ⟨c, t, hct, hws, _, _⟩ := dumpsP_head_spec pad ind 0 v
  have hs : skipWs (pad ++ dumpsP pad ind 0 v) = dumpsP pad ind 0 v := by
    rw [skipWs_append_ws _ hpad, hct]
    exact skipWs_cons_neg hws
  have hv := rt_val pad hpad ind v 0 [] ((pad ++ dumpsP pad ind 0 v).length + 1)
    (by have := jsize_le_len pad ind v 0; simp only [List.length_append]; omega) rfl
  rw [List.append_nil] at hv
  show (match parseValue ((pad ++ dumpsP pad ind 0 v).length + 1)
      (skipWs (pad ++ dumpsP pad ind 0 v)) with
    | some (w, r) => if skipWs r = [] then some w else none
    | none => none) = some v
  rw [hs, hv]
  rfl

theorem pad8_ws : ∀ c ∈ List.replicate 8 ' ', isWsChar c = true := by
  intro c hc
  rw [List.eq_of_mem_replicate hc]
  decide

theorem numSafe_blocksTail (rs : List Record) : numSafe (blocksTail rs) = true := by
  match rs with
  | [] => decide
  | r :: rs2 => rfl

theorem blocksTail_size_le : ∀ (rs : List Record),
    1 + jsizeElems (objsOf rs) ≤ (blocksTail rs).length
  | [] => by decide
  | r :: rs2 => by
    have h1 := jsize_le_len (List.replicate 8 ' ') (some 4) (Json.obj r) 0
    have h2 := blocksTail_size_le rs2
    simp only [blocksTail, objsOf, jsizeElems, List.length_cons, List.length_append,
      List.length_replicate, D4]
    simp only [jsize] at h1 ⊢
    omega

/-- Parsing the element region of the Array-mode document: the elements are
`dumps` renders joined by a bare comma and the 8-space shift, and the closing
wrapper follows the last one. -/
theorem parseElems_blocks : ∀ (rs : List Record) (r : Record) (fuel : Nat),
    jsizeElems (objsOf (r :: rs)) ≤ fuel →
    parseElems fuel (D4 r ++ blocksTail rs)
      = some (objsOf (r :: rs), '\n' :: [cbrace])
  | [], r, fuel => fun hf => by
    obtain ⟨f, rfl⟩ : ∃ f, fuel = f + 1 := ⟨fuel - 1, by
      simp only [objsOf, jsizeElems] at hf
      have := jsize_pos (Json.obj r)
      omega⟩
    rw [parseElems.eq_def]
    have hv := rt_val (List.replicate 8 ' ') pad8_ws (some 4) (Json.obj r) 0
      (blocksTail []) f
      (by simp only [objsOf, jsizeElems] at hf; omega)
      (numSafe_blocksTail [])
    have hsk : skipWs (blocksTail []) = ']' :: ('\n' :: [cbrace]) := by decide
    have hcm : ((']' : Char) = ',') = False := by decide
    have hvD : parseValue f (D4 r ++ blocksTail []) = some (Json.obj r, blocksTail []) := hv
    simp [hvD, hsk, hcm, objsOf]
  | r2 :: rs2, r, fuel => fun hf => by
    obtain ⟨f, rfl⟩ : ∃ f, fuel = f + 1 := ⟨fuel - 1, by
      simp only [objsOf, jsizeElems] at hf
      have := jsize_pos (Json.obj r)
      omega⟩
    rw [parseElems.eq_def]
    have hv := rt_val (List.replicate 8 ' ') pad8_ws (some 4) (Json.obj r) 0
      (blocksTail (r2 :: rs2)) f
      (by simp only [objsOf, jsizeElems] at hf; omega)
      (numSafe_blocksTail (r2 :: rs2))
    have hsk1 : skipWs (blocksTail (r2 :: rs2)) = blocksTail (r2 :: rs2) := by
      show skipWs (',' :: _) = _
      exact skipWs_cons_neg (by decide)
    obtain ⟨c0, t0, hct0, hws0, _, _⟩ :=
      dumpsP_head_spec (List.replicate 8 ' ') (some 4) 0 (Json.obj r2)
    have hsk2 : skipWs (List.replicate 8 ' ' ++ (D4 r2 ++ blocksTail rs2))
        = D4 r2 ++ blocksTail rs2 := by
      rw [skipWs_append_ws _ pad8_ws]
      show skipWs (dumpsP (List.replicate 8 ' ') (some 4) 0 (Json.obj r2) ++ _) = _
      rw [hct0, List.cons_append, skipWs_cons_neg hws0, ← List.cons_append, ← hct0]
      rfl
    have ih := parseElems_blocks rs2 r2 f
      (by simp only [objsOf, jsizeElems] at hf ⊢; omega)
    have hbt : blocksTail (r2 :: rs2)
        = ',' :: (List.replicate 8 ' ' ++ (D4 r2 ++ blocksTail rs2)) := rfl
    have hvD : parseValue f (D4 r ++ blocksTail (r2 :: rs2))
        = some (Json.obj r, blocksTail (r2 :: rs2)) := hv
    simp only [hvD]
    have hsk1c : skipWs (blocksTail (r2 :: rs2))
        = ',' :: (List.replicate 8 ' ' ++ (D4 r2 ++ blocksTail rs2)) := by
      rw [hsk1, hbt]
    simp only [hsk1c]
    have hsk2c : skipWs (' ' :: ' ' :: ' ' :: ' ' :: ' ' :: ' ' :: ' ' :: ' '
        :: (D4 r2 ++ blocksTail rs2)) = D4 r2 ++ blocksTail rs2 := hsk2
    simp [hsk2c, ih, objsOf]

theorem joinComma_blocks : ∀ (r : Record) (rs : List Record),
    joinComma ((r :: rs).map (fun x => List.replicate 8 ' ' ++ D4 x)) ++ closeW
      = List.replicate 8 ' ' ++ (D4 r ++ blocksTail rs)
  | r, [] => by simp [joinComma, blocksTail]
  | r, r2 :: rs2 => by
    have ih := joinComma_blocks r2 rs2
    show (List.replicate 8 ' ' ++ D4 r
        ++ ',' :: joinComma ((r2 :: rs2).map (fun x => List.replicate 8 ' ' ++ D4 x)))
        ++ closeW = _
    rw [List.append_assoc, List.cons_append, ih]
    show _ = List.replicate 8 ' '
      ++ (D4 r ++ (',' :: (List.replicate 8 ' ' ++ (D4 r2 ++ blocksTail rs2))))
    simp [List.append_assoc]

theorem ws5_all : ∀ c ∈ (['\n', ' ', ' ', ' ', ' '] : List Char), isWsChar c = true := by
  decide

theorem ws9_all : ∀ c ∈ ('\n' :: List.replicate 8 ' ' : List Char), isWsChar c = true := by
  intro c hc
  rcases List.mem_cons.mp hc with h | h
  · subst h
    decide
  · exact pad8_ws c h

/-- Parsing the `comments` value of the Array-mode document. -/
theorem parseValue_docArr (r : Record) (rs : List Record) : ∀ (fuel : Nat),
    jsizeElems (objsOf (r :: rs)) + 1 ≤ fuel →
    parseValue fuel ('[' :: ('\n' :: (List.replicate 8 ' ' ++ (D4 r ++ blocksTail rs))))
      = some (Json.arr (objsOf (r :: rs)), '\n' :: [cbrace]) := by
  intro fuel hfu
  obtain ⟨f, rfl⟩ : ∃ f, fuel = f + 1 := ⟨fuel - 1, by omega⟩
  rw [parseValue.eq_def]
  obtain ⟨c0, t0, hct0, hws0, hrb0, _⟩ :=
    dumpsP_head_spec (List.replicate 8 ' ') (some 4) 0 (Json.obj r)
  have hct0D : D4 r = c0 :: t0 := hct0
  have hsk : skipWs ('\n' :: (List.replicate 8 ' ' ++ (D4 r ++ blocksTail rs)))
      = D4 r ++ blocksTail rs := by
    rw [← List.cons_append, skipWs_append_ws _ ws9_all, hct0D, List.cons_append,
      skipWs_cons_neg hws0, ← List.cons_append, ← hct0D]
  have helems := parseElems_blocks rs r f (by omega)
  rw [hct0D, List.cons_append] at helems hsk
  have hskc : skipWs ('\n' :: ' ' :: ' ' :: ' ' :: ' ' :: ' ' :: ' ' :: ' ' :: ' '
      :: (c0 :: (t0 ++ blocksTail rs))) = c0 :: (t0 ++ blocksTail rs) := hsk
  simp [hskc, hct0D, hrb0, helems]

/-- Parsing the single `comments` member of the Array-mode document. -/
theorem parseMembers_doc (r : Record) (rs : List Record) : ∀ (fuel : Nat),
    jsizeElems (objsOf (r :: rs)) + 2 ≤ fuel →
    parseMembers fuel ('"' :: (escapeStr (("comments").data)
      ++ '"' :: ':' :: ' ' :: ('[' :: ('\n' :: (List.replicate 8 ' '
        ++ (D4 r ++ blocksTail rs))))))
      = some (JsonFields.cons (("comments").data) (Json.arr (objsOf (r :: rs)))
          JsonFields.nil, []) := by
  intro fuel hfu
  obtain ⟨f, rfl⟩ : ∃ f, fuel = f + 1 := ⟨fuel - 1, by omega⟩
  rw [parseMembers.eq_def]
  have hkey := parseStringBody_escape (("comments").data)
    (':' :: ' ' :: ('[' :: ('\n' :: (List.replicate 8 ' ' ++ (D4 r ++ blocksTail rs)))))
  have hsk1 : skipWs (':' :: ' ' :: ('[' :: ('\n' :: (List.replicate 8 ' '
      ++ (D4 r ++ blocksTail rs)))))
      = ':' :: ' ' :: ('[' :: ('\n' :: (List.replicate 8 ' ' ++ (D4 r ++ blocksTail rs)))) :=
    skipWs_cons_neg (by decide)
  have hsk2 : skipWs (' ' :: ('[' :: ('\n' :: (List.replicate 8 ' '
      ++ (D4 r ++ blocksTail rs)))))
      = '[' :: ('\n' :: (List.replicate 8 ' ' ++ (D4 r ++ blocksTail rs))) := by
    rw [show (' ' :: ('[' :: ('\n' :: (List.replicate 8 ' ' ++ (D4 r ++ blocksTail rs)))))
      = ([' '] : List Char) ++ ('[' :: ('\n' :: (List.replicate 8 ' '
        ++ (D4 r ++ blocksTail rs)))) from rfl]
    rw [skipWs_append_ws _ (by decide), skipWs_cons_neg (by decide)]
  have hval := parseValue_docArr r rs f (by omega)
  have hsk3 : skipWs ('\n' :: [cbrace]) = [cbrace] := by decide
  have hcb : (cbrace = ',') = False := by decide
  have hkeyc : parseStringBody (escapeStr (("comments").data)
      ++ '"' :: ':' :: ' ' :: ('[' :: ('\n' :: (' ' :: ' ' :: ' ' :: ' ' :: ' ' :: ' '
        :: ' ' :: ' ' :: (D4 r ++ blocksTail rs)))))
      = some ((("comments").data), ':' :: ' ' :: ('[' :: ('\n' :: (' ' :: ' ' :: ' '
        :: ' ' :: ' ' :: ' ' :: ' ' :: ' ' :: (D4 r ++ blocksTail rs))))) := hkey
  have hsk1c : skipWs (':' :: ' ' :: ('[' :: ('\n' :: (' ' :: ' ' :: ' ' :: ' ' :: ' '
      :: ' ' :: ' ' :: ' ' :: (D4 r ++ blocksTail rs)))))
      = ':' :: ' ' :: ('[' :: ('\n' :: (' ' :: ' ' :: ' ' :: ' ' :: ' ' :: ' ' :: ' '
        :: ' ' :: (D4 r ++ blocksTail rs)))) := hsk1
  have hsk2c : skipWs (' ' :: ('[' :: ('\n' :: (' ' :: ' ' :: ' ' :: ' ' :: ' ' :: ' '
      :: ' ' :: ' ' :: (D4 r ++ blocksTail rs)))))
      = '[' :: ('\n' :: (' ' :: ' ' :: ' ' :: ' ' :: ' ' :: ' ' :: ' ' :: ' '
        :: (D4 r ++ blocksTail rs))) := hsk2
  have hvalc : parseValue f ('[' :: ('\n' :: (' ' :: ' ' :: ' ' :: ' ' :: ' ' :: ' '
      :: ' ' :: ' ' :: (D4 r ++ blocksTail rs))))
      = some (Json.arr (objsOf (r :: rs)), '\n' :: [cbrace]) := hval
  simp [hkeyc, hsk1c, hsk2c, hvalc, hsk3, hcb]

/-- Parsing the whole Array-mode document body. -/
theorem parseValue_doc (r : Record) (rs : List Record) : ∀ (fuel : Nat),
    jsizeElems (objsOf (r :: rs)) + 3 ≤ fuel →
    parseValue fuel (obrace :: ('\n' :: ' ' :: ' ' :: ' ' :: ' '
      :: ('"' :: (escapeStr (("comments").data)
        ++ '"' :: ':' :: ' ' :: ('[' :: ('\n' :: (List.replicate 8 ' '
          ++ (D4 r ++ blocksTail rs))))))))
      = some (Json.obj (JsonFields.cons (("comments").data)
          (Json.arr (objsOf (r :: rs))) JsonFields.nil), []) := by
  intro fuel hfu
  obtain ⟨f, rfl⟩ : ∃ f, fuel = f + 1 := ⟨fuel - 1, by omega⟩
  rw [parseValue.eq_def]
  have hsk : skipWs ('\n' :: ' ' :: ' ' :: ' ' :: ' '
      :: ('"' :: (escapeStr (("comments").data)
        ++ '"' :: ':' :: ' ' :: ('[' :: ('\n' :: (List.replicate 8 ' '
          ++ (D4 r ++ blocksTail rs)))))))
      = '"' :: (escapeStr (("comments").data)
        ++ '"' :: ':' :: ' ' :: ('[' :: ('\n' :: (List.replicate 8 ' '
          ++ (D4 r ++ blocksTail rs))))) := by
    rw [show ('\n' :: ' ' :: ' ' :: ' ' :: ' '
      :: ('"' :: (escapeStr (("comments").data)
        ++ '"' :: ':' :: ' ' :: ('[' :: ('\n' :: (List.replicate 8 ' '
          ++ (D4 r ++ blocksTail rs)))))))
      = (['\n', ' ', ' ', ' ', ' '] : List Char) ++ ('"' :: (escapeStr (("comments").data)
        ++ '"' :: ':' :: ' ' :: ('[' :: ('\n' :: (List.replicate 8 ' '
          ++ (D4 r ++ blocksTail rs)))))) from rfl]
    rw [skipWs_append_ws _ ws5_all, skipWs_cons_neg (by decide)]
  have hmem := parseMembers_doc r rs f (by omega)
  have hob1 : (obrace = '"') = False := by decide
  have hob2 : (obrace = '[') = False := by decide
  have hqb : (('"' : Char) = cbrace) = False := by decide
  have hskc : skipWs ('\n' :: ' ' :: ' ' :: ' ' :: ' '
      :: ('"' :: (escapeStr (("comments").data)
        ++ '"' :: ':' :: ' ' :: ('[' :: ('\n' :: (' ' :: ' ' :: ' ' :: ' ' :: ' ' :: ' '
          :: ' ' :: ' ' :: (D4 r ++ blocksTail rs)))))))
      = '"' :: (escapeStr (("comments").data)
        ++ '"' :: ':' :: ' ' :: ('[' :: ('\n' :: (' ' :: ' ' :: ' ' :: ' ' :: ' ' :: ' '
          :: ' ' :: ' ' :: (D4 r ++ blocksTail rs))))) := hsk
  have hmemc : parseMembers f ('"' :: (escapeStr (("comments").data)
      ++ '"' :: ':' :: ' ' :: ('[' :: ('\n' :: (' ' :: ' ' :: ' ' :: ' ' :: ' ' :: ' '
        :: ' ' :: ' ' :: (D4 r ++ blocksTail rs))))))
      = some (JsonFields.cons (("comments").data) (Json.arr (objsOf (r :: rs)))
          JsonFields.nil, []) := hmem
  simp [hskc, hob1, hob2, hqb, hmemc]

/-- The Array-mode document for any emitted list of records parses back to
`{"comments": [...]}` with exactly those records, in order. -/
theorem parseDoc_prettyDoc : ∀ (rs : List Record),
    parseDoc (prettyDoc rs)
      = some (Json.obj (JsonFields.cons (("comments").data)
          (Json.arr (objsOf rs)) JsonFields.nil))
  | [] => by rfl
  | r :: rs => by
    have hdoc : prettyDoc (r :: rs)
        = obrace :: ('\n' :: ' ' :: ' ' :: ' ' :: ' '
          :: ('"' :: (escapeStr (("comments").data)
            ++ '"' :: ':' :: ' ' :: ('[' :: ('\n' :: (List.replicate 8 ' '
              ++ (D4 r ++ blocksTail rs))))))) := by
      show openW ++ joinComma ((r :: rs).map (fun x => List.replicate 8 ' ' ++ D4 x))
        ++ closeW = _
      rw [List.append_assoc, joinComma_blocks r rs]
      rw [show openW = obrace :: ('\n' :: ' ' :: ' ' :: ' ' :: ' '
        :: ('"' :: (escapeStr (("comments").data) ++ ['"', ':', ' ', '[', '\n'])))
        from by decide]
      simp [List.append_assoc]
    have h1 : jsize (Json.obj r) ≤ (D4 r).length :=
      jsize_le_len (List.replicate 8 ' ') (some 4) (Json.obj r) 0
    have h2 := blocksTail_size_le rs
    have hlen : jsizeElems (objsOf (r :: rs)) + 3 ≤ (prettyDoc (r :: rs)).length + 1 := by
      rw [hdoc]
      simp only [objsOf, jsizeElems, List.length_cons, List.length_append,
        List.length_replicate]
      omega
    simp only [parseDoc]
    have hv := parseValue_doc r rs ((prettyDoc (r :: rs)).length + 1) hlen
    rw [← hdoc] at hv
    have hskdoc : skipWs (prettyDoc (r :: rs)) = prettyDoc (r :: rs) := by
      rw [hdoc]
      exact skipWs_cons_neg (by decide)
    rw [hskdoc, hv]
    rfl

/-! ### The writer loop -/

theorem writeLoopF_none (fuel : Nat) (pretty : Bool) (limit : Option Int)
    (rest : List Record) (count : Int) :
    writeLoopF fuel pretty limit none rest count = ⟨[], [], [], 0⟩ := by
  match fuel with
  | 0 => rfl
  | f + 1 => rfl

theorem writeLoopF_empty (fuel : Nat) (pretty : Bool) (limit : Option Int) (r : Record)
    (rest : List Record) (count : Int) (hr : isEmptyR r = true) :
    writeLoopF (fuel + 1) pretty limit (some r) rest count = ⟨[], [], [], 0⟩ := by
  rw [writeLoopF.eq_def]
  simp [hr]

theorem writeLoopF_hit (fuel : Nat) (pretty : Bool) (limit : Option Int) (r : Record)
    (rest : List Record) (count : Int) (hr : isEmptyR r = false)
    (hh : hitCond limit count = true) :
    writeLoopF (fuel + 1) pretty limit (some r) rest count
      = ⟨to_json r (if pretty then some 4 else none), [r], [], 0⟩ := by
  rw [writeLoopF.eq_def]
  simp [hr, hh, writeLoopF_none]

theorem writeLoopF_last (fuel : Nat) (pretty : Bool) (limit : Option Int) (r : Record)
    (count : Int) (hr : isEmptyR r = false) (hh : hitCond limit count = false) :
    writeLoopF (fuel + 1) pretty limit (some r) [] count
      = ⟨to_json r (if pretty then some 4 else none), [r], [], 1⟩ := by
  rw [writeLoopF.eq_def]
  simp [hr, hh, writeLoopF_none]

theorem writeLoopF_step (fuel : Nat) (pretty : Bool) (limit : Option Int) (r x : Record)
    (rest : List Record) (count : Int) (hr : isEmptyR r = false)
    (hh : hitCond limit count = false) :
    writeLoopF (fuel + 1) pretty limit (some r) (x :: rest) count
      = ⟨(if pretty then to_json r (some 4) ++ [','] else to_json r none)
            ++ (writeLoopF fuel pretty limit (some x) rest (count + 1)).text,
          r :: (writeLoopF fuel pretty limit (some x) rest (count + 1)).emitted,
          x :: (writeLoopF fuel pretty limit (some x) rest (count + 1)).pulled,
          1 + (writeLoopF fuel pretty limit (some x) rest (count + 1)).pulls⟩ := by
  rw [writeLoopF.eq_def]
  simp only [hr, hh, Bool.false_eq_true, if_false, List.head?_cons, List.tail_cons,
    Option.isSome_some, Bool.and_true]
  match pretty with
  | true => rfl
  | false => rfl

theorem writeLoopF_emitted_cons (fuel : Nat) (pretty : Bool) (limit : Option Int)
    (r : Record) (rest : List Record) (count : Int) (hr : isEmptyR r = false) :
    ∃ tl, (writeLoopF (fuel + 1) pretty limit (some r) rest count).emitted = r :: tl := by
  by_cases hh : hitCond limit count
  · exact ⟨[], by rw [writeLoopF_hit fuel pretty limit r rest count hr hh]⟩
  · match rest with
    | [] =>
      exact ⟨[], by
        rw [writeLoopF_last fuel pretty limit r count hr (by simpa using hh)]⟩
    | x :: rest2 =>
      exact ⟨_, by
        rw [writeLoopF_step fuel pretty limit r x rest2 count hr (by simpa using hh)]⟩

theorem writeLoopF_emitted_mem : ∀ (fuel : Nat) (pretty : Bool) (limit : Option Int)
    (r : Record) (rest : List Record) (count : Int),
    ∀ x ∈ (writeLoopF fuel pretty limit (some r) rest count).emitted, x = r ∨ x ∈ rest
  | 0, pretty, limit, r, rest, count => by
    intro x hx
    simp [writeLoopF] at hx
  | fuel + 1, pretty, limit, r, rest, count => by
    intro x hx
    by_cases hre : isEmptyR r
    · rw [writeLoopF_empty fuel pretty limit r rest count hre] at hx
      simp at hx
    · have hr : isEmptyR r = false := by simpa using hre
      by_cases hh : hitCond limit count
      · rw [writeLoopF_hit fuel pretty limit r rest count hr hh] at hx
        simp at hx
        exact Or.inl hx
      · match rest with
        | [] =>
          rw [writeLoopF_last fuel pretty limit r count hr (by simpa using hh)] at hx
          simp at hx
          exact Or.inl hx
        | y :: rest2 =>
          rw [writeLoopF_step fuel pretty limit r y rest2 count hr (by simpa using hh)] at hx
          simp only [List.mem_cons] at hx
          rcases hx with hx | hx
          · exact Or.inl hx
          · rcases writeLoopF_emitted_mem fuel pretty limit y rest2 (count + 1) x hx with
              h | h
            · exact Or.inr (by simp [h])
            · exact Or.inr (by simp [h])

/-- With a limit that can never hit (`None`, or `0`, falsy in Python), the
loop runs through the whole sequence of non-empty records. -/
theorem writeLoopF_emitted_nohit : ∀ (rest : List Record) (fuel : Nat) (pretty : Bool)
    (limit : Option Int) (r : Record) (count : Int),
    rest.length + 1 ≤ fuel → (∀ c, hitCond limit c = false) →
    isEmptyR r = false → (∀ x ∈ rest, isEmptyR x = false) →
    (writeLoopF fuel pretty limit (some r) rest count).emitted = r :: rest
  | [], fuel, pretty, limit, r, count => fun hfu hnh hr _ => by
    obtain ⟨f, rfl⟩ : ∃ f, fuel = f + 1 := ⟨fuel - 1, by omega⟩
    rw [writeLoopF_last f pretty limit r count hr (hnh count)]
  | x :: rest2, fuel, pretty, limit, r, count => fun hfu hnh hr hall => by
    obtain ⟨f, rfl⟩ : ∃ f, fuel = f + 1 := ⟨fuel - 1, by omega⟩
    rw [writeLoopF_step f pretty limit r x rest2 count hr (hnh count)]
    have ih := writeLoopF_emitted_nohit rest2 f pretty limit x (count + 1)
      (by simp at hfu; omega) hnh (hall x (List.mem_cons_self x rest2))
      (fun y hy => hall y (List.mem_cons_of_mem x hy))
    simp [ih]

/-- With a positive limit, the loop emits the current record and then
truncates the remainder at the limit. -/
theorem writeLoopF_emitted_limit : ∀ (rest : List Record) (fuel : Nat) (pretty : Bool)
    (L : Int) (r : Record) (count : Int),
    rest.length + 1 ≤ fuel → 1 ≤ L → 1 ≤ count → count ≤ L →
    isEmptyR r = false → (∀ x ∈ rest, isEmptyR x = false) →
    (writeLoopF fuel pretty (some L) (some r) rest count).emitted
      = r :: rest.take (L - count).toNat
  | rest, fuel, pretty, L, r, count => fun hfu hL hc1 hcL hr hall => by
    obtain ⟨f, rfl⟩ : ∃ f, fuel = f + 1 := ⟨fuel - 1, by omega⟩
    by_cases hh : hitCond (some L) count
    · have hLc : L ≤ count := by
        simp only [hitCond, Bool.and_eq_true, decide_eq_true_eq] at hh
        exact hh.2
      rw [writeLoopF_hit f pretty (some L) r rest count hr hh]
      rw [show (L - count).toNat = 0 from by omega]
      simp
    · have hcltL : count < L := by
        simp only [hitCond, Bool.and_eq_true, Bool.not_eq_true', decide_eq_false_iff_not,
          decide_eq_true_eq, not_and, not_le] at hh
        by_cases h0 : L = 0
        · omega
        · exact hh h0
      match rest with
      | [] =>
        rw [writeLoopF_last f pretty (some L) r count hr (by simpa using hh)]
        simp
      | x :: rest2 =>
        rw [writeLoopF_step f pretty (some L) r x rest2 count hr (by simpa using hh)]
        have ih := writeLoopF_emitted_limit rest2 f pretty L x (count + 1)
          (by simp at hfu; omega) hL (by omega) (by omega)
          (hall x (List.mem_cons_self x rest2))
          (fun y hy => hall y (List.mem_cons_of_mem x hy))
        rw [show (L - count).toNat = (L - (count + 1)).toNat + 1 from by omega]
        simp [ih]
termination_by rest => rest.length
decreasing_by all_goals (simp_wf; try omega)

/-- A negative limit hits on the first comparison (`count = 1`), so only the
current record is emitted. -/
theorem writeLoopF_emitted_neg (fuel : Nat) (pretty : Bool) (L : Int) (r : Record)
    (rest : List Record) (count : Int) (hL : L < 0) (hc : L ≤ count)
    (hr : isEmptyR r = false) :
    (writeLoopF (fuel + 1) pretty (some L) (some r) rest count).emitted = [r] := by
  rw [writeLoopF_hit fuel pretty (some L) r rest count hr
    (by simp only [hitCond, Bool.and_eq_true, Bool.not_eq_true', decide_eq_false_iff_not,
      decide_eq_true_eq]; omega)]

/-- Check-then-pull: with limit `L` and `count ≤ L`, the loop makes exactly
`L - count` further `next` calls. -/
theorem writeLoopF_pulls_limit : ∀ (rest : List Record) (fuel : Nat) (pretty : Bool)
    (L : Int) (r : Record) (count : Int),
    rest.length + 1 ≤ fuel → 1 ≤ count → count ≤ L → (L - count).toNat ≤ rest.length →
    isEmptyR r = false → (∀ x ∈ rest, isEmptyR x = false) →
    (writeLoopF fuel pretty (some L) (some r) rest count).pulls = (L - count).toNat
  | rest, fuel, pretty, L, r, count => fun hfu hc1 hcL hlen hr hall => by
    obtain ⟨f, rfl⟩ : ∃ f, fuel = f + 1 := ⟨fuel - 1, by omega⟩
    by_cases hh : hitCond (some L) count
    · have hLc : L ≤ count := by
        simp only [hitCond, Bool.and_eq_true, decide_eq_true_eq] at hh
        exact hh.2
      rw [writeLoopF_hit f pretty (some L) r rest count hr hh]
      show (0 : Nat) = (L - count).toNat
      omega
    · have hcltL : count < L := by
        simp only [hitCond, Bool.and_eq_true, Bool.not_eq_true', decide_eq_false_iff_not,
          decide_eq_true_eq, not_and, not_le] at hh
        by_cases h0 : L = 0
        · omega
        · exact hh h0
      match rest with
      | [] =>
        simp only [List.length_nil] at hlen
        omega
      | x :: rest2 =>
        rw [writeLoopF_step f pretty (some L) r x rest2 count hr (by simpa using hh)]
        have ih := writeLoopF_pulls_limit rest2 f pretty L x (count + 1)
          (by simp at hfu; omega) (by omega) (by omega)
          (by simp at hlen; omega)
          (hall x (List.mem_cons_self x rest2))
          (fun y hy => hall y (List.mem_cons_of_mem x hy))
        simp only [ih]
        omega
termination_by rest => rest.length
decreasing_by all_goals (simp_wf; try omega)

/-- Every record a loop-internal `next` call returned is emitted right after
its predecessor, provided no record is Python-falsy. -/
theorem writeLoopF_pulled_eq_tail : ∀ (rest : List Record) (fuel : Nat) (pretty : Bool)
    (limit : Option Int) (r : Record) (count : Int),
    rest.length + 1 ≤ fuel →
    isEmptyR r = false → (∀ x ∈ rest, isEmptyR x = false) →
    (writeLoopF fuel pretty limit (some r) rest count).pulled
      = ((writeLoopF fuel pretty limit (some r) rest count).emitted).tail
  | rest, fuel, pretty, limit, r, count => fun hfu hr hall => by
    obtain ⟨f, rfl⟩ : ∃ f, fuel = f + 1 := ⟨fuel - 1, by omega⟩
    by_cases hh : hitCond limit count
    · rw [writeLoopF_hit f pretty limit r rest count hr hh]
      rfl
    · match rest with
      | [] =>
        rw [writeLoopF_last f pretty limit r count hr (by simpa using hh)]
        rfl
      | x :: rest2 =>
        rw [writeLoopF_step f pretty limit r x rest2 count hr (by simpa using hh)]
        have hx : isEmptyR x = false := hall x (List.mem_cons_self x rest2)
        have ih := writeLoopF_pulled_eq_tail rest2 f pretty limit x (count + 1)
          (by simp at hfu; omega) hx
          (fun y hy => hall y (List.mem_cons_of_mem x hy))
        obtain ⟨f2, rfl⟩ : ∃ f2, f = f2 + 1 := ⟨f - 1, by simp at hfu; omega⟩
        obtain ⟨tl, htl⟩ := writeLoopF_emitted_cons f2 pretty limit x rest2 (count + 1) hx
        simp only [ih, htl, List.tail_cons]
termination_by rest => rest.length
decreasing_by all_goals (simp_wf; try omega)

/-- In pretty mode the loop writes the encoded records joined by a bare
comma: the separator appended at line 92 is `","` alone. -/
theorem writeLoopF_pretty_text : ∀ (rest : List Record) (fuel : Nat)
    (limit : Option Int) (r : Record) (count : Int),
    rest.length + 1 ≤ fuel →
    isEmptyR r = false → (∀ x ∈ rest, isEmptyR x = false) →
    (writeLoopF fuel true limit (some r) rest count).text
      = joinComma ((writeLoopF fuel true limit (some r) rest count).emitted.map
          (fun x => to_json x (some 4)))
  | rest, fuel, limit, r, count => fun hfu hr hall => by
    obtain ⟨f, rfl⟩ : ∃ f, fuel = f + 1 := ⟨fuel - 1, by omega⟩
    by_cases hh : hitCond limit count
    · rw [writeLoopF_hit f true limit r rest count hr hh]
      rfl
    · match rest with
      | [] =>
        rw [writeLoopF_last f true limit r count hr (by simpa using hh)]
        rfl
      | x :: rest2 =>
        rw [writeLoopF_step f true limit r x rest2 count hr (by simpa using hh)]
        have hx : isEmptyR x = false := hall x (List.mem_cons_self x rest2)
        have ih := writeLoopF_pretty_text rest2 f limit x (count + 1)
          (by simp at hfu; omega) hx
          (fun y hy => hall y (List.mem_cons_of_mem x hy))
        obtain ⟨f2, rfl⟩ : ∃ f2, f = f2 + 1 := ⟨f - 1, by simp at hfu; omega⟩
        obtain ⟨tl, htl⟩ := writeLoopF_emitted_cons f2 true limit x rest2 (count + 1) hx
        rw [htl] at ih ⊢
        simp only [List.map_cons, joinComma, ih, if_pos rfl]
        simp [joinComma]
termination_by rest => rest.length
decreasing_by all_goals (simp_wf; try omega)

/-- The full Array-mode file text is `prettyDoc` of the emitted records. -/
theorem mainOutput_pretty_eq (limit : Option Int) (rs : List Record)
    (h1 : ∀ r ∈ rs, isEmptyR r = false) (h2 : ∀ r ∈ rs, cleanRec r = true) :
    mainOutput true limit rs = prettyDoc (mainEmitted true limit rs) := by
  match rs with
  | [] => rfl
  | r :: rest =>
    show openW ++ (writeLoopF (rest.length + 2) true limit (some r) rest 1).text ++ closeW
      = prettyDoc (writeLoopF (rest.length + 2) true limit (some r) rest 1).emitted
    rw [writeLoopF_pretty_text rest (rest.length + 2) limit r 1 (by omega)
      (h1 r (List.mem_cons_self r rest)) (fun y hy => h1 y (List.mem_cons_of_mem r hy))]
    have hcongr : ∀ x ∈ (writeLoopF (rest.length + 2) true limit (some r) rest 1).emitted,
        to_json x (some 4) = List.replicate 8 ' ' ++ D4 x := by
      intro x hx
      have hmem := writeLoopF_emitted_mem (rest.length + 2) true limit r rest 1 x hx
      have hcx : cleanRec x = true := by
        rcases hmem with h | h
        · exact h ▸ h2 r (List.mem_cons_self r rest)
        · exact h2 x (List.mem_cons_of_mem r h)
      exact to_json_pretty x hcx
    rw [List.map_congr_left hcongr]
    rfl

theorem escapeChar_high (c : Char) (h : 128 ≤ c.toNat) : escapeChar c = [c] := by
  have hnot : ∀ d : Char, d.toNat < 128 → (c = d) = False := by
    intro d hd
    simp only [eq_iff_iff, iff_false]
    rw [char_eq_iff_toNat]
    omega
  simp only [escapeChar, hnot '"' (by decide), hnot '\\' (by decide),
    hnot (Char.ofNat 8) (by decide), hnot (Char.ofNat 12) (by decide),
    hnot '\n' (by decide), hnot '\r' (by decide), hnot '\t' (by decide), if_false]
  rw [if_neg (by omega)]

/-! ### The claims -/

/-- Claim C1 (amended): for every limit and every finite producer sequence of
Python-truthy records whose strings avoid the raw line separators U+0085,
U+2028 and U+2029, the Array-mode output parses as one JSON document whose
`comments` key holds exactly the emitted records, in order.  (As stated the
claim is false: a falsy lookahead record leaves a trailing comma, see the
counterexample.) -/
theorem C1_array_doc_parses (limit : Option Int) (rs : List Record)
    (h1 : ∀ r ∈ rs, isEmptyR r = false) (h2 : ∀ r ∈ rs, cleanRec r = true) :
    parseDoc (mainOutput true limit rs)
      = some (Json.obj (JsonFields.cons (("comments").data)
          (Json.arr (objsOf (mainEmitted true limit rs))) JsonFields.nil)) := by
  rw [mainOutput_pretty_eq limit rs h1 h2]
  exact parseDoc_prettyDoc (mainEmitted true limit rs)

/-- Witness for C1 at the two-record sequence `[recA, recB]` with no limit. -/
theorem C1_witness :
    (∀ r ∈ ([recA, recB] : List Record), isEmptyR r = false)
    ∧ (∀ r ∈ ([recA, recB] : List Record), cleanRec r = true)
    ∧ parseDoc (mainOutput true none [recA, recB])
      = some (Json.obj (JsonFields.cons (("comments").data)
          (Json.arr (objsOf (mainEmitted true none [recA, recB]))) JsonFields.nil)) :=
  ⟨by decide, by decide, C1_array_doc_parses none [recA, recB] (by decide) (by decide)⟩

/-- Counterexample to C1 as stated: with producer sequence `[recA, {}]` the
empty dict is pulled as lookahead (it is not `None`, so a comma is appended)
but is falsy, so the loop stops; the document ends `...},\n    ]\n}` and is
not parseable, although the emitted list is `[recA]`. -/
theorem C1_counterexample :
    mainEmitted true none [recA, emptyRec] = [recA]
    ∧ parseDoc (mainOutput true none [recA, emptyRec]) = none := ⟨rfl, rfl⟩

/-- Claim C2: the claim promises one JSON object per line, newline-terminated
(ND-JSON).  The code prints with `end=""` and never writes a newline: for the
two-record sequence `[recA, recB]` the whole file is the single line
`{"a": 1}{"b": 2}` — one line, not two, not newline-terminated, and not
parseable as a single JSON document either. -/
theorem C2_ndjson_single_line :
    mainOutput false none [recA, recB] = ("\x7b\"a\": 1\x7d\x7b\"b\": 2\x7d").data
    ∧ (splitlinesKeep (mainOutput false none [recA, recB])).length = 1
    ∧ lastIsNl (mainOutput false none [recA, recB]) = false
    ∧ parseDoc (mainOutput false none [recA, recB]) = none :=
  ⟨rfl, rfl, rfl, rfl⟩

/-- Claim C3 (amended): for a positive limit `L ≥ 1` and a producer sequence
of Python-truthy records, exactly `min(N, L)` records are emitted.  (As
stated the claim is false for `L = 0`: `0` is falsy, `limit and count >=
limit` never truncates, and all records are emitted.) -/
theorem C3_limit_min (pretty : Bool) (L : Int) (hL : 1 ≤ L) (rs : List Record)
    (h1 : ∀ r ∈ rs, isEmptyR r = false) :
    (mainEmitted pretty (some L) rs).length = min rs.length L.toNat := by
  match rs with
  | [] =>
    show (writeLoopF 2 pretty (some L) none [] 1).emitted.length = _
    rw [writeLoopF_none]
    simp
  | r :: rest =>
    show (writeLoopF (rest.length + 2) pretty (some L) (some r) rest 1).emitted.length = _
    rw [writeLoopF_emitted_limit rest (rest.length + 2) pretty L r 1 (by omega) hL
      (by omega) hL (h1 r (List.mem_cons_self r rest))
      (fun y hy => h1 y (List.mem_cons_of_mem r hy))]
    simp only [List.length_cons, List.length_take]
    omega

/-- Witness for C3 at limit 2 over three records. -/
theorem C3_witness : (1 : Int) ≤ 2
    ∧ (∀ r ∈ ([recA, recB, recA] : List Record), isEmptyR r = false)
    ∧ (mainEmitted false (some 2) [recA, recB, recA]).length
      = min ([recA, recB, recA] : List Record).length (2 : Int).toNat :=
  ⟨by decide, by decide, C3_limit_min false 2 (by decide) [recA, recB, recA] (by decide)⟩

/-- Counterexample to C3 as stated: limit `L = 0` should yield `min(N, 0) =
0` records, but `0` is falsy and the whole sequence is emitted. -/
theorem C3_counterexample : mainEmitted false (some 0) [recA] = [recA] := rfl

/-- Claim C4 (amended): for a producer sequence of Python-truthy records,
every record pulled from the producer (the initial pull included) is emitted,
in order; the loop stops only at `None` or at the limit.  (As stated the
claim is false: a pulled empty dict is falsy and ends the loop unemitted,
see the counterexample.) -/
theorem C4_pulled_emitted (pretty : Bool) (limit : Option Int) (rs : List Record)
    (h1 : ∀ r ∈ rs, isEmptyR r = false) :
    mainPulledRecs pretty limit rs = mainEmitted pretty limit rs := by
  match rs with
  | [] => rfl
  | r :: rest =>
    have hr := h1 r (List.mem_cons_self r rest)
    have hp := writeLoopF_pulled_eq_tail rest (rest.length + 2) pretty limit r 1
      (by omega) hr (fun y hy => h1 y (List.mem_cons_of_mem r hy))
    obtain ⟨tl, htl⟩ := writeLoopF_emitted_cons (rest.length + 1) pretty limit r rest 1 hr
    have htl2 : (writeLoopF (rest.length + 2) pretty limit (some r) rest 1).emitted
        = r :: tl := htl
    show [r] ++ (writeLoopF (rest.length + 2) pretty limit (some r) rest 1).pulled
      = (writeLoopF (rest.length + 2) pretty limit (some r) rest 1).emitted
    rw [hp, htl2]
    rfl

/-- Witness for C4 at the two-record sequence with no limit. -/
theorem C4_witness : (∀ r ∈ ([recA, recB] : List Record), isEmptyR r = false)
    ∧ mainPulledRecs false none [recA, recB] = mainEmitted false none [recA, recB] :=
  ⟨by decide, C4_pulled_emitted false none [recA, recB] (by decide)⟩

/-- Counterexample to C4 as stated: with sequence `[recA, {}]` the empty dict
is pulled (two pulls return records) but only one record is ever emitted —
the pulled `{}` is dropped, not emitted, despite the limit not being hit. -/
theorem C4_counterexample :
    (mainPulledRecs false none [recA, emptyRec]).length = 2
    ∧ (mainEmitted false none [recA, emptyRec]).length = 1 := ⟨rfl, rfl⟩

/-- Claim C5 (amended): in Array mode the writer separates adjacent encoded
records with a bare `","` and nothing else — no newline is appended, so the
next record's 8-space shift follows the comma on the same line.  (As stated —
"append a separator and newline" — the claim is false, see the
counterexample.) -/
theorem C5_comma_only (limit : Option Int) (r : Record) (rest : List Record)
    (h1 : ∀ x ∈ r :: rest, isEmptyR x = false) :
    (writeLoop true limit (some r) rest 1).text
      = joinComma ((writeLoop true limit (some r) rest 1).emitted.map
          (fun x => to_json x (some 4))) :=
  writeLoopF_pretty_text rest (rest.length + 2) limit r 1 (by omega)
    (h1 r (List.mem_cons_self r rest)) (fun y hy => h1 y (List.mem_cons_of_mem r hy))

/-- Witness for C5 at the two-record sequence with no limit. -/
theorem C5_witness : (∀ x ∈ ([recA, recB] : List Record), isEmptyR x = false)
    ∧ (writeLoop true none (some recA) [recB] 1).text
      = joinComma ((writeLoop true none (some recA) [recB] 1).emitted.map
          (fun x => to_json x (some 4))) :=
  ⟨by decide, C5_comma_only none recA [recB] (by decide)⟩

/-- Counterexample to C5 as stated: between the two encoded records the loop
writes `","` only; the character after the comma is the space of the next
record's shift, not the claimed newline. -/
theorem C5_counterexample :
    (writeLoop true none (some recA) [recB] 1).text
      = to_json recA (some 4) ++ ',' :: to_json recB (some 4)
    ∧ (to_json recB (some 4)).head? = some ' ' := ⟨rfl, rfl⟩

/-- Claim C6 (amended): with limit `L ≥ 1` and a producer of at least `L`
Python-truthy records, `next` is called exactly `L` times — the count is
compared to the limit before the lookahead pull.  (As stated — for every
sequence with at least `L` records — the claim is false when a falsy record
ends the loop early, see the counterexample.) -/
theorem C6_pull_calls (pretty : Bool) (L : Int) (hL : 1 ≤ L) (rs : List Record)
    (hlen : L.toNat ≤ rs.length) (h1 : ∀ r ∈ rs, isEmptyR r = false) :
    mainPullCalls pretty (some L) rs = L.toNat := by
  match rs with
  | [] =>
    simp only [List.length_nil] at hlen
    omega
  | r :: rest =>
    show 1 + (writeLoopF (rest.length + 2) pretty (some L) (some r) rest 1).pulls = _
    rw [writeLoopF_pulls_limit rest (rest.length + 2) pretty L r 1 (by omega)
      (by omega) hL (by simp only [List.length_cons] at hlen; omega)
      (h1 r (List.mem_cons_self r rest))
      (fun y hy => h1 y (List.mem_cons_of_mem r hy))]
    omega

/-- Witness for C6 at limit 2 over two records. -/
theorem C6_witness : (1 : Int) ≤ 2
    ∧ (2 : Int).toNat ≤ ([recA, recB] : List Record).length
    ∧ (∀ r ∈ ([recA, recB] : List Record), isEmptyR r = false)
    ∧ mainPullCalls false (some 2) [recA, recB] = (2 : Int).toNat :=
  ⟨by decide, by decide, by decide,
    C6_pull_calls false 2 (by decide) [recA, recB] (by decide) (by decide)⟩

/-- Counterexample to C6 as stated: the sequence `[{}, recB]` has at least
`L = 2` records, but the initial pull returns the falsy `{}`, the loop never
runs, and `next` is called once, not twice. -/
theorem C6_counterexample :
    (2 : Int).toNat ≤ ([emptyRec, recB] : List Record).length
    ∧ mainPullCalls false (some 2) [emptyRec, recB] = 1 := ⟨by decide, rfl⟩

/-- Claim C7 (amended): compact encoding passes non-ASCII characters through
raw (no `\u` escaping), but it is not whitespace-free: `json.dumps` with no
indent uses the default separators `", "` and `": "`, which insert a space
after every comma and colon.  (The "no inserted whitespace" half of the claim
is false, see the counterexample.) -/
theorem C7_passthrough_sep (pad : List Char) (ind : Option Nat) (lvl : Nat)
    (c : Char) (h : 128 ≤ c.toNat) :
    dumpsP pad ind lvl (Json.str [c]) = '"' :: c :: ['"']
    ∧ itemSep none = [',', ' '] := by
  refine ⟨?_, rfl⟩
  show '"' :: (escapeStr [c] ++ ['"']) = _
  rw [show escapeStr [c] = escapeChar c from by simp [escapeStr]]
  rw [escapeChar_high c h]
  rfl

/-- Witness for C7 at the non-ASCII character U+00E9. -/
theorem C7_witness : 128 ≤ (Char.ofNat 233).toNat
    ∧ (dumpsP [] none 0 (Json.str [Char.ofNat 233])
        = '"' :: Char.ofNat 233 :: ['"']
      ∧ itemSep none = [',', ' ']) :=
  ⟨by decide, C7_passthrough_sep [] none 0 (Char.ofNat 233) (by decide)⟩

/-- Counterexample to C7 as stated: the compact encoding of `recBA` is
`{"b": 1, "a": 2}` — it contains inserted spaces, so it is not minimal
whitespace-free JSON. -/
theorem C7_counterexample :
    to_json recBA none = ("\x7b\"b\": 1, \"a\": 2\x7d").data
    ∧ ' ' ∈ to_json recBA none := ⟨rfl, by decide⟩

/-- Claim C8: key order of the record is preserved verbatim in both encoding
styles: parsing the rendered text recovers the record with its fields in the
original order (for pretty mode, for records whose strings avoid the raw
line separators that `str.splitlines` would additionally break on). -/
theorem C8_key_order (r : Record) (hc : cleanRec r = true) :
    parseDoc (to_json r none) = some (Json.obj r)
    ∧ parseDoc (to_json r (some 4)) = some (Json.obj r) := by
  constructor
  · rw [to_json_compact r]
    exact parseDoc_dumps [] (fun c hc => absurd hc (List.not_mem_nil c)) none (Json.obj r)
  · rw [to_json_pretty r hc]
    exact parseDoc_pad_dumps (List.replicate 8 ' ') pad8_ws (some 4) (Json.obj r)

/-- Witness for C8 at the record with keys in order `["b", "a"]`. -/
theorem C8_witness : cleanRec recBA = true
    ∧ (parseDoc (to_json recBA none) = some (Json.obj recBA)
      ∧ parseDoc (to_json recBA (some 4)) = some (Json.obj recBA)) :=
  ⟨by decide, C8_key_order recBA (by decide)⟩

/-- Claim C9 (amended): the run raises `ValueError` before any I/O exactly
when neither a (truthy) video id nor a (truthy) URL is supplied, or the
output path is empty; supplying both id and URL is accepted, not rejected.
(The "exactly one of" half of the claim is false, see the counterexample.) -/
theorem C9_config_error (yid url : Option (List Char)) (output : List Char) :
    mainEffects yid url output = [Effect.raiseValueError]
      ↔ ((truthyOpt yid = false ∧ truthyOpt url = false) ∨ output.isEmpty = true) := by
  constructor
  · intro h
    by_cases hcond : (((!truthyOpt yid) && (!truthyOpt url)) || output.isEmpty) = true
    · simp only [Bool.or_eq_true, Bool.and_eq_true, Bool.not_eq_true'] at hcond
      rcases hcond with ⟨hy, hu⟩ | ho
      exacts [Or.inl ⟨hy, hu⟩, Or.inr ho]
    · exfalso
      simp only [mainEffects, if_neg hcond] at h
      by_cases hsep : output.contains '/'
      · rw [if_pos hsep] at h
        simp at h
      · rw [if_neg hsep] at h
        simp at h
  · intro h
    have hcond : (((!truthyOpt yid) && (!truthyOpt url)) || output.isEmpty) = true := by
      rcases h with ⟨hy, hu⟩ | ho
      · simp [hy, hu]
      · simp [ho]
    simp [mainEffects, hcond]

/-- Counterexample to C9 as stated: a run with BOTH a video id and a URL is
not a configuration error — it proceeds to construct the producer and open
the output file. -/
theorem C9_counterexample :
    mainEffects (some (("v").data)) (some (("u").data)) (("o").data)
      = [Effect.buildProducer, Effect.openOutput] := rfl

/-- Claim C10 (amended): a negative limit emits exactly one record whenever
the first record is Python-truthy: `count` starts at 1, so the first check
`limit and count >= limit` is already true.  (As stated — for every non-empty
sequence — the claim is false when the first record is the falsy `{}`, see
the counterexample.) -/
theorem C10_negative_limit (pretty : Bool) (L : Int) (hL : L < 0) (r : Record)
    (rest : List Record) (hr : isEmptyR r = false) :
    mainEmitted pretty (some L) (r :: rest) = [r] := by
  show (writeLoopF (rest.length + 2) pretty (some L) (some r) rest 1).emitted = [r]
  rw [show rest.length + 2 = rest.length + 1 + 1 from rfl]
  exact writeLoopF_emitted_neg (rest.length + 1) pretty L r rest 1 hL (by omega) hr

/-- Witness for C10 at limit -1 over two records. -/
theorem C10_witness : (-1 : Int) < 0 ∧ isEmptyR recA = false
    ∧ mainEmitted false (some (-1)) [recA, recB] = [recA] :=
  ⟨by decide, by decide, C10_negative_limit false (-1) (by decide) recA [recB] (by decide)⟩

/-- Counterexample to C10 as stated: the producer sequence `[{}]` is
non-empty, but with limit -1 zero records are emitted, not one: the falsy
first record stops the loop before the first emission. -/
theorem C10_counterexample :
    mainEmitted false (some (-1)) [emptyRec] = [] := rfl

/-- Witness for C9: with neither id nor URL the run is exactly the raised
`ValueError`, before any filesystem or producer effect. -/
theorem C9_witness :
    mainEffects none none (("o").data) = [Effect.raiseValueError] :=
  (C9_config_error none none (("o").data)).mpr (Or.inl ⟨rfl, rfl⟩)
